import Mathlib

/-!
Verification of the jsl schema library (src/jsl/fields.py and its role
machinery) against its natural-language specification.

The field tree, the schema compiler (`get_definitions_and_schema`) and the
walker (`walk`) are embedded from src/jsl/fields.py.  The role-variant
machinery (`Var`, `maybe_resolve`, `maybe_resolve_2`), the resolution scope
and the `Document` class live in modules of the repository that are not part
of src/ (jsl/roles.py, jsl/scope.py, jsl/document.py, jsl/registry.py); those
parts are modelled from the spec, as marked on each definition.
-/

set_option maxHeartbeats 1600000

namespace Jsl

/-- JSON-like values: the payloads that appear inside emitted schemas. -/
inductive JValue where
  | str (s : String)
  | num (n : Int)
  | bool (b : Bool)
  | arr (elems : List JValue)
  | obj (entries : List (String × JValue))

/-- A schema is a Python dict from string keys to JSON values, modelled as an
association list in insertion order. -/
abbrev Schema := List (String × JValue)

/-- A definitions map, `definition_id -> schema`, same representation. -/
abbrev Defs := List (String × JValue)

/-- Python dict assignment `d[k] = v`: replace the binding in place if the key
exists, otherwise append it. -/
def setKey : List (String × JValue) → String → JValue → List (String × JValue)
  | [], k, v => [(k, v)]
  | (k2, v2) :: rest, k, v =>
    if k2 = k then (k, v) :: rest else (k2, v2) :: setKey rest k v

/-- Python `d.update(new)`: set every binding of `new` into `d`, in order. -/
def updateAll (d : List (String × JValue)) (new : List (String × JValue)) :
    List (String × JValue) :=
  new.foldl (fun acc kv => setKey acc kv.1 kv.2) d

/-- First-binding association-list lookup (Python dict lookup; keys are
unique in every dict the source builds). -/
def lookupA {α : Type} : List (String × α) → String → Option α
  | [], _ => none
  | (k2, v) :: rest, k => if k2 = k then some v else lookupA rest k

/-- The fixed sentinel role name (`jsl.roles.DEFAULT_ROLE`). -/
def DEFAULT_ROLE : String := "default"

/-- The self-reference sentinel (`fields.RECURSIVE_REFERENCE_CONSTANT`). -/
def RECURSIVE_REFERENCE_CONSTANT : String := "self"

/-- Modelled from the spec: a role predicate of a `Var` entry (jsl/roles.py is
not in src/).  Per spec section 3 a predicate is an exact role name, a negated
role name (`Not`), or a catch-all that matches anything. -/
inductive RolePred where
  | lit (r : String)
  | negated (r : String)
  | catchAll
deriving DecidableEq

/-- Modelled from the spec: whether a queried role matches a predicate.  A
literal matches only its exact role name; `Not(R)` matches every role except
`R`; the catch-all matches anything (spec section 4.1). -/
def rolePredMatches : RolePred → String → Bool
  | .lit s, r => s = r
  | .negated s, r => s ≠ r
  | .catchAll, _ => true

/-- Modelled from the spec: scan the `(predicate, value)` list in declared
order; the first predicate that matches the queried role wins; no match
yields absent (spec section 4.1). -/
def resolveList {α : Type} : List (RolePred × α) → String → Option α
  | [], _ => none
  | (p, v) :: rest, r =>
    if rolePredMatches p r then some v else resolveList rest r

/-- Modelled from the spec: a `Var` (RoleVariant, jsl/roles.py): an ordered
list of `(predicate, value)` pairs plus the set of roles to pass down. -/
structure VarSpec (α : Type) where
  values : List (RolePred × α)
  propagated : List String

/-- Modelled from the spec: `Var.resolve(role)`. -/
def VarSpec.resolve {α : Type} (v : VarSpec α) (r : String) : Option α :=
  resolveList v.values r

/-- Modelled from the spec: `Var.resolve_2(role)` returns the resolved value
together with the effective role for descending into it: the queried role
when it is among the roles to pass down, the default role otherwise
(spec section 4.1). -/
def VarSpec.resolve2 {α : Type} (v : VarSpec α) (r : String) :
    Option α × String :=
  (v.resolve r, if v.propagated.contains r then r else DEFAULT_ROLE)

/-- An attribute that is either a plain value (possibly Python `None`) or a
`Var` over values. -/
inductive MaybeVar (α : Type) where
  | plain (v : Option α)
  | var (v : VarSpec α)

/-- Modelled from the spec: `maybe_resolve(value, role)` -- resolve a `Var`,
pass a plain value through. -/
def maybeResolve {α : Type} : MaybeVar α → String → Option α
  | .plain v, _ => v
  | .var v, r => v.resolve r

/-- Modelled from the spec: `maybe_resolve_2(value, role)` -- like
`maybe_resolve` but also yields the effective role for nested resolution;
for a plain value the role is unchanged. -/
def maybeResolve2 {α : Type} : MaybeVar α → String → Option α × String
  | .plain v, r => (v, r)
  | .var v, r => v.resolve2 r

/-- A value that may be a zero-argument callable, evaluated at resolution
time (`get_enum` / `get_default` call it); `force` models the call. -/
inductive Lazy (α : Type) where
  | val (a : α)
  | fn (a : α)

/-- Evaluate a possibly-callable value (`if callable(x): x = x()`). -/
def Lazy.force {α : Type} : Lazy α → α
  | .val a => a
  | .fn a => a

/-- The attributes shared by all schema-bearing fields: `required` from
`BaseField.__init__`, and `id`, `title`, `description`, `enum`, `default`
from `BaseSchemaField.__init__` (src lines 34-35, 116-122). -/
structure CommonAttrs where
  required : MaybeVar Bool := .plain (some false)
  id : String := ""
  title : MaybeVar String := .plain none
  description : MaybeVar String := .plain none
  enum : MaybeVar (Lazy (List JValue)) := .plain none
  default : MaybeVar (Lazy JValue) := .plain none

mutual

/-- The field tree of src/jsl/fields.py.  `number` covers `NumberField` and
`IntField` via the `_NUMBER_TYPE` string; `string` covers `StringField` and
its format subclasses (the format is stored at construction); `ofKind`
covers `OneOfField`/`AnyOfField`/`AllOfField` via the `_KEYWORD` string;
`docF` is `DocumentField` with its resolved-by-name document class, `as_ref`
flag and owner (set by `set_owner`). -/
inductive Field where
  | boolean (c : CommonAttrs)
  | string (c : CommonAttrs) (pattern format : MaybeVar String)
      (minLength maxLength : MaybeVar Int)
  | number (numType : String) (c : CommonAttrs)
      (multipleOf minimum maximum : MaybeVar Int)
      (exclusiveMinimum exclusiveMaximum : MaybeVar Bool)
  | array (c : CommonAttrs) (items : MaybeVar Items)
      (minItems maxItems : MaybeVar Int) (uniqueItems : MaybeVar Bool)
      (additionalItems : MaybeVar AddItems)
  | dict (c : CommonAttrs)
      (properties patternProperties : MaybeVar (List (String × MaybeVar Field)))
      (additionalProperties : MaybeVar AddProps)
      (minProperties maxProperties : MaybeVar Int)
  | ofKind (keyword : String) (c : CommonAttrs)
      (fields : MaybeVar (List (MaybeVar Field)))
  | notF (c : CommonAttrs) (field : MaybeVar Field)
  | docF (required : MaybeVar Bool) (documentCls : MaybeVar String)
      (asRef : Bool) (owner : Option String)

/-- `ArrayField.items`: a single field or a positional (tuple-typed) list. -/
inductive Items where
  | single (f : Field)
  | list (l : List (MaybeVar Field))

/-- `ArrayField.additional_items`: a boolean or a field. -/
inductive AddItems where
  | bool (b : Bool)
  | field (f : Field)

/-- `DictField.additional_properties`: a boolean or a field. -/
inductive AddProps where
  | bool (b : Bool)
  | field (f : Field)

end

/-- Modelled from the spec: a `Document` (jsl/document.py is not in src/):
an ordered mapping of property name to field, document options (title,
description, a stable definition id) and the additional-properties policy,
which defaults to disallowing extra properties (spec section 3). -/
structure Document where
  properties : List (String × MaybeVar Field)
  title : Option String := none
  description : Option String := none
  definitionId : String
  additionalProps : Bool := false

/-- Modelled from the spec: the injected document-name resolver (the
registry); documents are identified by name (spec section 6). -/
abbrev Env := List (String × Document)

/-- The `required` attribute of a field (`BaseField.required`). -/
def Field.requiredAttr : Field → MaybeVar Bool
  | .boolean c => c.required
  | .string c _ _ _ _ => c.required
  | .number _ c _ _ _ _ _ => c.required
  | .array c _ _ _ _ _ => c.required
  | .dict c _ _ _ _ _ => c.required
  | .ofKind _ c _ => c.required
  | .notF c _ => c.required
  | .docF req _ _ _ => req

/-- Modelled from the spec: a resolution scope (jsl/scope.py is not in
src/): an immutable stack of id segments (spec section 4.2). -/
structure Scope where
  base : List String := []

/-- Modelled from the spec: `scope.alter(id)` returns the id to write into
the schema and the child scope; an empty id leaves the scope unchanged
(spec section 4.2). -/
def Scope.alter (s : Scope) (id : String) : String × Scope :=
  if id = "" then (id, s) else (id, { base := s.base ++ [id] })

/-- Modelled from the spec: `scope.create_ref(definition_id)` renders the
reference schema; definitions are always hoisted to the document root, so
the pointer is root-relative regardless of scope depth (spec section 4.2). -/
def createRef (_s : Scope) (definitionId : String) : Schema :=
  [("$ref", .str ("#/definitions/" ++ definitionId))]

/-- Errors a compile or walk can raise, plus fuel exhaustion of the model.
`invalidRegex` is the `ValueError` of `_validate_regex`; `ownerNotSet` is
`ValueError("owner_cls is not set")`; `attributeErrorNone` is Python's
`AttributeError` from calling a method on `None`; `typeError` is Python's
`TypeError` from iterating a non-iterable. -/
inductive CErr where
  | fuel
  | invalidRegex (s : String)
  | ownerNotSet
  | docNotFound (s : String)
  | attributeErrorNone
  | typeError
deriving DecidableEq

/-- Write a string value under `k` when present (`if x is not None:`). -/
def setOptStr (s : Schema) (k : String) : Option String → Schema
  | some t => setKey s k (.str t)
  | none => s

/-- Write a numeric value under `k` when present (`if x is not None:`). -/
def setOptNum (s : Schema) (k : String) : Option Int → Schema
  | some n => setKey s k (.num n)
  | none => s

/-- Write `True` under `k` when the resolved value is truthy (`if x:`). -/
def setIfTrue (s : Schema) (k : String) : Option Bool → Schema
  | some true => setKey s k (.bool true)
  | _ => s

/-- Write a string value under `k` when it is truthy -- present and
non-empty (`if pattern:`). -/
def setTruthyStr (s : Schema) (k : String) : Option String → Schema
  | some t => if t = "" then s else setKey s k (.str t)
  | none => s

/-- Write the enum list when it is truthy -- present and non-empty
(`if enum: schema["enum"] = list(enum)`). -/
def setEnum (s : Schema) : Option (List JValue) → Schema
  | some l => if l.isEmpty then s else setKey s "enum" (.arr l)
  | none => s

/-- Write the default value when present (`if default is not None:`). -/
def setDefault (s : Schema) : Option JValue → Schema
  | some d => setKey s "default" d
  | none => s

/-- `BaseSchemaField._update_schema_with_common_fields` (src lines 136-151):
write `id` if non-empty, then `title` and `description` when they resolve
non-None, then `enum` when it resolves truthy (a non-empty list), then
`default` when it resolves non-None; callables are evaluated. -/
def updateCommon (schema : Schema) (id : String) (role : String)
    (c : CommonAttrs) : Schema :=
  setDefault
    (setEnum
      (setOptStr
        (setOptStr (if id = "" then schema else setKey schema "id" (.str id))
          "title" (maybeResolve c.title role))
        "description" (maybeResolve c.description role))
      ((maybeResolve c.enum role).map Lazy.force))
    ((maybeResolve c.default role).map Lazy.force)

/-- `DictField._process_properties` (src lines 413-427): resolve each
property field with `maybe_resolve_2`, skip absent ones, compile the rest
under their effective role, record the name under `required` when the
field's own `required` attribute resolves truthy, and merge definitions.
`go` is the child compile call with the scope and ref set already fixed. -/
def processProperties (go : Field → String → Except CErr (Defs × Schema)) :
    List (String × MaybeVar Field) → String →
    Except CErr (Defs × List String × Schema)
  | [], _ => .ok ([], [], [])
  | (prop, mv) :: rest, role =>
    match maybeResolve2 mv role with
    | (none, _) => processProperties go rest role
    | (some g, grole) => do
      let (gd, gs) ← go g grole
      let (rd, rreq, rsch) ← processProperties go rest role
      let req := if maybeResolve g.requiredAttr grole = some true
        then prop :: rreq else rreq
      .ok (updateAll gd rd, req, (prop, .obj gs) :: rsch)

/-- The loop of `ArrayField.get_definitions_and_schema` over positional
items (src lines 333-339): each item is resolved with `maybe_resolve_2` and
then compiled unconditionally -- an item that resolves to `None` makes the
source call `None.get_definitions_and_schema`, an `AttributeError`. -/
def arrayItemsC (go : Field → String → Except CErr (Defs × Schema)) :
    List (MaybeVar Field) → String → Except CErr (Defs × List JValue)
  | [], _ => .ok ([], [])
  | mv :: rest, role =>
    match maybeResolve2 mv role with
    | (none, _) => .error .attributeErrorNone
    | (some g, grole) => do
      let (gd, gs) ← go g grole
      let (rd, rs) ← arrayItemsC go rest role
      .ok (updateAll gd rd, JValue.obj gs :: rs)

/-- The loop of `BaseOfField.get_definitions_and_schema` (src lines
504-511): resolve each entry, skip the absent ones (`if field is None:
continue`), compile the rest and collect their schemas. -/
def ofItems (go : Field → String → Except CErr (Defs × Schema)) :
    List (MaybeVar Field) → String → Except CErr (Defs × List JValue)
  | [], _ => .ok ([], [])
  | mv :: rest, role =>
    match maybeResolve2 mv role with
    | (none, _) => ofItems go rest role
    | (some g, grole) => do
      let (gd, gs) ← go g grole
      let (rd, rs) ← ofItems go rest role
      .ok (updateAll gd rd, JValue.obj gs :: rs)

/-- `DocumentField.get_document_cls` (src lines 628-643): resolve the
document reference for the role; `None` passes through; the self-reference
sentinel is substituted by the owner, raising
`ValueError("owner_cls is not set")` when there is no owner; any other name
is looked up in the registry, falling back on the owner's module -- absence
of an owner raises the same `ValueError`, and the modelled single-namespace
registry makes the module-qualified retry fail as a lookup error. -/
def getDocumentCls (env : Env) (owner : Option String) (mv : MaybeVar String)
    (role : String) : Except CErr (Option String) :=
  match maybeResolve mv role with
  | none => .ok none
  | some s =>
    if s = RECURSIVE_REFERENCE_CONSTANT then
      match owner with
      | none => .error .ownerNotSet
      | some o => .ok (some o)
    else
      match lookupA env s with
      | some _ => .ok (some s)
      | none =>
        match owner with
        | none => .error .ownerNotSet
        | some _ => .error (.docNotFound s)

/-- Modelled from the spec: `Document.get_definitions_and_schema`
(jsl/document.py is not in src/): compile the document's properties like an
object schema -- absent fields omitted, `required` aggregated from each
field's own required attribute and emitted only when non-empty -- with the
document's title, description and additional-properties policy
(spec sections 3, 4.4 and the end-to-end example of section 8). -/
def compileDocument (go : Field → String → Except CErr (Defs × Schema))
    (doc : Document) (role : String) : Except CErr (Defs × Schema) := do
  let (d, req, psch) ← processProperties go doc.properties role
  let schema : Schema := [("type", .str "object")]
  let schema := setOptStr schema "title" doc.title
  let schema := setOptStr schema "description" doc.description
  let schema := setKey schema "additionalProperties" (.bool doc.additionalProps)
  let schema := setKey schema "properties" (.obj psch)
  let schema := if req.isEmpty then schema
    else setKey schema "required" (.arr (req.map .str))
  .ok (d, schema)

/-- The `properties` block of `DictField.get_definitions_and_schema`
(src lines 435-442): resolve the properties map, process it, write
`properties` and, when non-empty, `required`. -/
def dictPropsStep (go2 : Field → String → Except CErr (Defs × Schema))
    (props : MaybeVar (List (String × MaybeVar Field))) (role : String)
    (schema0 : Schema) : Except CErr (Defs × Schema) :=
  match maybeResolve2 props role with
  | (none, _) => .ok ([], schema0)
  | (some ps, propsRole) => do
    let (d, req, psch) ← processProperties go2 ps propsRole
    let s := setKey schema0 "properties" (.obj psch)
    let s := if req.isEmpty then s else setKey s "required" (.arr (req.map .str))
    .ok (d, s)

/-- The `pattern_properties` block (src lines 444-452): validate every key
in declared order, then process the map and write `patternProperties`. -/
def dictPatPropsStep (rx : String → Bool)
    (go2 : Field → String → Except CErr (Defs × Schema))
    (patProps : MaybeVar (List (String × MaybeVar Field))) (role : String)
    (acc : Defs × Schema) : Except CErr (Defs × Schema) :=
  match maybeResolve2 patProps role with
  | (none, _) => .ok acc
  | (some pps, ppRole) =>
    match pps.find? (fun kv => !rx kv.1) with
    | some kv => .error (.invalidRegex kv.1)
    | none => do
      let (d, _, psch) ← processProperties go2 pps ppRole
      .ok (updateAll acc.1 d, setKey acc.2 "patternProperties" (.obj psch))

/-- The `additional_properties` block (src lines 454-462). -/
def dictAddPropsStep (go2 : Field → String → Except CErr (Defs × Schema))
    (addProps : MaybeVar AddProps) (role : String) (acc : Defs × Schema) :
    Except CErr (Defs × Schema) :=
  match maybeResolve2 addProps role with
  | (none, _) => .ok acc
  | (some (.bool b), _) => .ok (acc.1, setKey acc.2 "additionalProperties" (.bool b))
  | (some (.field g), apRole) => do
    let (d, s) ← go2 g apRole
    .ok (updateAll acc.1 d, setKey acc.2 "additionalProperties" (.obj s))

/-- The `items` block of `ArrayField.get_definitions_and_schema` (src lines
329-344): a single field compiles under the effective role; a positional
list iterates `self.items` -- a `Var`-valued items attribute that resolves
to a list is iterated unresolved, a `TypeError` -- and the common fields
are written only when items resolve present. -/
def arrayItemsStep (go2 : Field → String → Except CErr (Defs × Schema))
    (items : MaybeVar Items) (role : String) (id : String) (c : CommonAttrs)
    (base : Schema) : Except CErr (Defs × Schema) :=
  match maybeResolve2 items role with
  | (none, _) => .ok ([], base)
  | (some its, itemsRole) =>
    match its with
    | .single g => do
      let (d, s) ← go2 g itemsRole
      .ok (d, setKey (updateCommon base id role c) "items" (.obj s))
    | .list _ =>
      match items with
      | .plain (some (.list l)) => do
        let (d, ls) ← arrayItemsC go2 l role
        .ok (d, setKey (updateCommon base id role c) "items" (.arr ls))
      | _ => .error .typeError

/-- The `additional_items` block (src lines 346-354). -/
def arrayAddItemsStep (go2 : Field → String → Except CErr (Defs × Schema))
    (addI : MaybeVar AddItems) (role : String) (acc : Defs × Schema) :
    Except CErr (Defs × Schema) :=
  match maybeResolve2 addI role with
  | (none, _) => .ok acc
  | (some (.bool b), _) => .ok (acc.1, setKey acc.2 "additionalItems" (.bool b))
  | (some (.field g), addRole) => do
    let (d, s) ← go2 g addRole
    .ok (updateAll acc.1 d, setKey acc.2 "additionalItems" (.obj s))

/-- One step of `get_definitions_and_schema` (src/jsl/fields.py), with the
recursive child compile call abstracted as `go` (child field, role, scope):
`rx` is the injected regular-expression validity test (`re.compile`
succeeding). -/
def compileStep (rx : String → Bool) (env : Env)
    (go : Field → String → Scope → Except CErr (Defs × Schema))
    (f : Field) (role : String) (scope : Scope) (refs : List String) :
    Except CErr (Defs × Schema) :=
  match f with
    | .boolean c =>
      -- BooleanField (src lines 157-161)
      let id := (scope.alter c.id).1
      .ok ([], updateCommon [("type", .str "boolean")] id role c)
    | .string c pat fmt minL maxL =>
      -- StringField (src lines 192-209); `if pattern:` is a truthiness test
      let id := (scope.alter c.id).1
      let s := updateCommon [("type", .str "string")] id role c
      let s := setTruthyStr s "pattern" (maybeResolve pat role)
      let s := setOptNum s "minLength" (maybeResolve minL role)
      let s := setOptNum s "maxLength" (maybeResolve maxL role)
      let s := setOptStr s "format" (maybeResolve fmt role)
      .ok ([], s)
    | .number numType c mo mi ma emin emax =>
      -- NumberField (src lines 262-281), including the misspelled
      -- `exclusiveMinumum` key of line 274
      let id := (scope.alter c.id).1
      let s := updateCommon [("type", .str numType)] id role c
      let s := setOptNum s "multipleOf" (maybeResolve mo role)
      let s := setOptNum s "minimum" (maybeResolve mi role)
      let s := setIfTrue s "exclusiveMinumum" (maybeResolve emin role)
      let s := setOptNum s "maximum" (maybeResolve ma role)
      let s := setIfTrue s "exclusiveMaximum" (maybeResolve emax role)
      .ok ([], s)
    | .array c items minI maxI uniq addI => do
      -- ArrayField (src lines 324-365); in the positional case the source
      -- iterates `self.items`, so a Var-valued items list is a TypeError,
      -- and an absent element is compiled anyway (AttributeError on None)
      let id := (scope.alter c.id).1
      let scope1 := (scope.alter c.id).2
      let base : Schema := [("type", .str "array")]
      let acc1 ← arrayItemsStep (fun g r => go g r scope1) items role id c base
      let acc2 ← arrayAddItemsStep (fun g r => go g r scope1) addI role acc1
      Except.ok (acc2.1, setIfTrue (setOptNum (setOptNum acc2.2
        "minItems" (maybeResolve minI role)) "maxItems"
        (maybeResolve maxI role)) "uniqueItems" (maybeResolve uniq role))
    | .dict c props patProps addProps minP maxP => do
      -- DictField (src lines 429-471); pattern keys are validated at
      -- compile time, in declared order, not at construction
      let base : Schema := [("type", .str "object")]
      let id := (scope.alter c.id).1
      let scope1 := (scope.alter c.id).2
      let schema0 := updateCommon base id role c
      let acc1 ← dictPropsStep (fun g r => go g r scope1) props role schema0
      let acc2 ← dictPatPropsStep rx (fun g r => go g r scope1) patProps role acc1
      let acc3 ← dictAddPropsStep (fun g r => go g r scope1) addProps role acc2
      Except.ok (acc3.1, setOptNum (setOptNum acc3.2
        "minProperties" (maybeResolve minP role)) "maxProperties"
        (maybeResolve maxP role))
    | .ofKind keyword c flds => do
      -- BaseOfField (src lines 498-515); note line 514 passes no role to
      -- `_update_schema_with_common_fields`, so the default role is used
      let id := (scope.alter c.id).1
      let scope1 := (scope.alter c.id).2
      let (defs1, oneOf) ←
        (match maybeResolve2 flds role with
         | (none, _) => Except.ok (([] : Defs), ([] : List JValue))
         | (some l, fldsRole) => ofItems (fun g r => go g r scope1) l fldsRole)
      Except.ok (defs1, updateCommon [(keyword, .arr oneOf)] id DEFAULT_ROLE c)
    | .notF c mvf => do
      -- NotField (src lines 558-570): an absent child wraps an empty schema
      let id := (scope.alter c.id).1
      let scope1 := (scope.alter c.id).2
      let (d, ns) ←
        (match maybeResolve2 mvf role with
         | (none, _) => Except.ok (([] : Defs), JValue.obj [])
         | (some g, grole) => do
           let (gd, gs) ← go g grole scope1
           Except.ok (gd, JValue.obj gs))
      Except.ok (d, updateCommon [("not", ns)] id role c)
    | .docF _ mv asRef owner =>
      -- DocumentField (src lines 611-623); an unresolvable document class
      -- makes line 613 call a method on None
      match getDocumentCls env owner mv role with
      | .error e => .error e
      | .ok none => .error .attributeErrorNone
      | .ok (some dname) =>
        match lookupA env dname with
        | none => .error (.docNotFound dname)
        | some doc =>
          let defId := doc.definitionId
          if refs.contains dname then
            .ok ([], createRef scope defId)
          else
            match compileDocument (fun g r => go g r scope) doc role with
            | .error e => .error e
            | .ok (dd, ds) =>
              if asRef then .ok (setKey dd defId (.obj ds), createRef scope defId)
              else .ok (dd, ds)

/-- `get_definitions_and_schema` of every field variant: `compileStep` tied
by recursion on the fuel, which bounds the recursion depth of the model. -/
def compileField (rx : String → Bool) (env : Env) :
    Nat → Field → String → Scope → List String → Except CErr (Defs × Schema)
  | 0, _, _, _, _ => .error .fuel
  | fuel + 1, f, role, scope, refs =>
    compileStep rx env (fun g r sc => compileField rx env fuel g r sc refs)
      f role scope refs

/-- The children a field yields (`iter_fields` of each variant, src lines
80-81, 367-379, 473-488, 517-521, 594-596); absent entries that the source
yields as `None` are kept as `none` for the walker to skip, exactly as
`BaseField.walk` does. -/
def iterFields (env : Env) (f : Field) (role : String) :
    Except CErr (List (Option Field)) :=
  match f with
  | .boolean _ => .ok []
  | .string _ _ _ _ _ => .ok []
  | .number _ _ _ _ _ _ _ => .ok []
  | .notF _ _ => .ok []
  | .array _ items _ _ _ addI =>
    let fromItems : List (Option Field) :=
      match maybeResolve2 items role with
      | (none, _) => []
      | (some (.single g), _) => [some g]
      | (some (.list l), itemsRole) => l.map (fun mv => maybeResolve mv itemsRole)
    let fromAdd : List (Option Field) :=
      match maybeResolve addI role with
      | some (.field g) => [some g]
      | _ => []
    .ok (fromItems ++ fromAdd)
  | .dict _ props patProps addProps _ _ =>
    let l1 : List (Option Field) :=
      match maybeResolve2 props role with
      | (none, _) => []
      | (some ps, propsRole) =>
        (ps.filterMap (fun nv => maybeResolve nv.2 propsRole)).map some
    let l2 : List (Option Field) :=
      match maybeResolve2 patProps role with
      | (none, _) => []
      | (some ps, ppRole) =>
        (ps.filterMap (fun nv => maybeResolve nv.2 ppRole)).map some
    let l3 : List (Option Field) :=
      match maybeResolve addProps role with
      | some (.field g) => [some g]
      | _ => []
    .ok (l1 ++ l2 ++ l3)
  | .ofKind _ _ flds =>
    -- BaseOfField.iter_fields iterates the resolved value without a None
    -- check: iterating None is a TypeError
    match maybeResolve2 flds role with
    | (none, _) => .error .typeError
    | (some l, fldsRole) => .ok (l.map (fun mv => maybeResolve mv fldsRole))
  | .docF _ mv _ owner =>
    -- DocumentField.iter_fields delegates to the document class; a None
    -- document class is an AttributeError.  Document.iter_fields is
    -- modelled from the spec: it yields the resolved, present fields
    match getDocumentCls env owner mv role with
    | .error e => .error e
    | .ok none => .error .attributeErrorNone
    | .ok (some dname) =>
      match lookupA env dname with
      | none => .error (.docNotFound dname)
      | some doc =>
        .ok ((doc.properties.filterMap (fun nv => maybeResolve nv.2 role)).map some)

/-- Walk a list of yielded children: `None` entries are skipped (the
`if field is None: continue` of `BaseField.walk`), the walks of the rest
are concatenated. -/
def walkList (go : Field → Except CErr (List Field)) :
    List (Option Field) → Except CErr (List Field)
  | [] => .ok []
  | none :: rest => walkList go rest
  | some g :: rest => do
    let xs ← go g
    let ys ← walkList go rest
    .ok (xs ++ ys)

/-- `BaseField.walk` (src lines 83-93): yield the field, then walk each
non-None child the `iter_fields` protocol yields. -/
def walkBaseStep (env : Env) (go : Field → Except CErr (List Field))
    (f : Field) (role : String) : Except CErr (List Field) :=
  match iterFields env f role with
  | .error e => .error e
  | .ok children =>
    match walkList go children with
    | .error e => .error e
    | .ok rest => .ok (f :: rest)

/-- `walk` (src lines 83-93 and 598-609): DFS yielding the field itself and
then its children's walks.  A `DocumentField` expands through its document
only when `through_document_fields` is set and the document is not already
in the visited set; the expansion adds the document to the set.  The
source's `if field != self` filter drops the duplicate leading `self`
yielded by `super().walk`; the model builds the list without that duplicate
(the filter compares by object identity, which a value embedding cannot
re-create and which the duplicate head is the only identical occurrence of). -/
def walkStep (env : Env)
    (go : Field → String → Bool → List String → Except CErr (List Field))
    (f : Field) (role : String) (tdf : Bool) (visited : List String) :
    Except CErr (List Field) :=
  match f with
    | .docF req mv asRef owner =>
      if tdf then
        match getDocumentCls env owner mv role with
        | .error e => .error e
        | .ok none =>
          -- None is never in the visited set, so the source recurses into
          -- super().walk, whose iter_fields call fails on the None document
          .error .attributeErrorNone
        | .ok (some dname) =>
          if visited.contains dname then .ok [.docF req mv asRef owner]
          else
            match lookupA env dname with
            | none => .error (.docNotFound dname)
            | some doc =>
              let children : List (Option Field) :=
                (doc.properties.filterMap (fun nv => maybeResolve nv.2 role)).map some
              match walkList
                  (fun g => go g role tdf (dname :: visited)) children with
              | .error e => .error e
              | .ok rest => .ok (.docF req mv asRef owner :: rest)
      else .ok [.docF req mv asRef owner]
    | f => walkBaseStep env (fun g => go g role tdf visited) f role

/-! ### Lemmas about the association-list and resolution primitives -/

theorem fst_maybeResolve2 {α : Type} (mv : MaybeVar α) (r : String) :
    (maybeResolve2 mv r).1 = maybeResolve mv r := by
  cases mv <;> rfl

theorem lookupA_setKey_same (l : List (String × JValue)) (k : String)
    (v : JValue) : lookupA (setKey l k v) k = some v := by
  induction l with
  | nil => simp [setKey, lookupA]
  | cons hd t ih =>
    rcases hd with ⟨k2, v2⟩
    by_cases hk : k2 = k
    · subst hk
      simp [setKey, lookupA]
    · simp [setKey, lookupA, hk, ih]

theorem lookupA_setKey_ne (l : List (String × JValue)) (k2 k : String)
    (v : JValue) (h : k2 ≠ k) : lookupA (setKey l k2 v) k = lookupA l k := by
  induction l with
  | nil => simp [setKey, lookupA, h]
  | cons hd t ih =>
    rcases hd with ⟨k3, v3⟩
    by_cases hk : k3 = k2
    · subst hk
      simp [setKey, lookupA, h]
    · simp [setKey, lookupA, hk, ih]

theorem lookupA_setOptStr_ne (s : Schema) (k2 k : String) (o : Option String)
    (h : k2 ≠ k) : lookupA (setOptStr s k2 o) k = lookupA s k := by
  cases o <;> simp [setOptStr, lookupA_setKey_ne _ _ _ _ h]

theorem lookupA_setOptNum_ne (s : Schema) (k2 k : String) (o : Option Int)
    (h : k2 ≠ k) : lookupA (setOptNum s k2 o) k = lookupA s k := by
  cases o <;> simp [setOptNum, lookupA_setKey_ne _ _ _ _ h]

theorem lookupA_setIfTrue_ne (s : Schema) (k2 k : String) (o : Option Bool)
    (h : k2 ≠ k) : lookupA (setIfTrue s k2 o) k = lookupA s k := by
  rcases o with _ | b
  · simp [setIfTrue]
  · cases b <;> simp [setIfTrue, lookupA_setKey_ne _ _ _ _ h]

theorem lookupA_setTruthyStr_ne (s : Schema) (k2 k : String)
    (o : Option String) (h : k2 ≠ k) :
    lookupA (setTruthyStr s k2 o) k = lookupA s k := by
  rcases o with _ | t
  · simp [setTruthyStr]
  · by_cases ht : t = "" <;> simp [setTruthyStr, ht, lookupA_setKey_ne _ _ _ _ h]

theorem lookupA_setEnum_ne (s : Schema) (k : String) (o : Option (List JValue))
    (h : k ≠ "enum") : lookupA (setEnum s o) k = lookupA s k := by
  rcases o with _ | l
  · simp [setEnum]
  · by_cases hl : l.isEmpty <;>
      simp [setEnum, hl, lookupA_setKey_ne _ _ _ _ (Ne.symm h)]

theorem lookupA_setDefault_ne (s : Schema) (k : String) (o : Option JValue)
    (h : k ≠ "default") : lookupA (setDefault s o) k = lookupA s k := by
  rcases o with _ | d
  · simp [setDefault]
  · simp [setDefault, lookupA_setKey_ne _ _ _ _ (Ne.symm h)]

theorem lookupA_setOptStr_same (s : Schema) (k : String) (o : Option String) :
    lookupA (setOptStr s k o) k =
      (match o with
       | some t => some (.str t)
       | none => lookupA s k) := by
  cases o <;> simp [setOptStr, lookupA_setKey_same]

theorem lookupA_setOptNum_same (s : Schema) (k : String) (o : Option Int) :
    lookupA (setOptNum s k o) k =
      (match o with
       | some n => some (.num n)
       | none => lookupA s k) := by
  cases o <;> simp [setOptNum, lookupA_setKey_same]

theorem lookupA_setIfTrue_same (s : Schema) (k : String) (o : Option Bool) :
    lookupA (setIfTrue s k o) k =
      (match o with
       | some true => some (.bool true)
       | _ => lookupA s k) := by
  rcases o with _ | b
  · simp [setIfTrue]
  · cases b <;> simp [setIfTrue, lookupA_setKey_same]

theorem lookupA_updateCommon_ne (s : Schema) (id role : String)
    (c : CommonAttrs) (k : String) (h1 : k ≠ "id") (h2 : k ≠ "title")
    (h3 : k ≠ "description") (h4 : k ≠ "enum") (h5 : k ≠ "default") :
    lookupA (updateCommon s id role c) k = lookupA s k := by
  unfold updateCommon
  rw [lookupA_setDefault_ne _ _ _ h5, lookupA_setEnum_ne _ _ _ h4,
    lookupA_setOptStr_ne _ _ _ _ (Ne.symm h3),
    lookupA_setOptStr_ne _ _ _ _ (Ne.symm h2)]
  by_cases hid : id = ""
  · simp [hid]
  · simp [hid, lookupA_setKey_ne _ _ _ _ (Ne.symm h1)]

theorem resolveList_mem {α : Type} :
    ∀ (l : List (RolePred × α)) (r : String) (v : α),
    resolveList l r = some v → ∃ p, (p, v) ∈ l := by
  intro l r v
  induction l with
  | nil => simp [resolveList]
  | cons hd t ih =>
    rcases hd with ⟨p, x⟩
    by_cases hm : rolePredMatches p r = true
    · simp only [resolveList, hm, if_true, Option.some.injEq]
      rintro rfl
      exact ⟨p, by simp⟩
    · simp only [resolveList, hm, if_false, Bool.false_eq_true]
      intro h
      obtain ⟨q, hq⟩ := ih h
      exact ⟨q, by simp [hq]⟩

/-- `walk`: `walkStep` tied by recursion on the fuel, which bounds the
recursion depth of the model. -/
def walkF (env : Env) :
    Nat → Field → String → Bool → List String → Except CErr (List Field)
  | 0, _, _, _, _ => .error .fuel
  | fuel + 1, f, role, tdf, visited =>
    walkStep env (fun g r t vis => walkF env fuel g r t vis) f role tdf visited

/-! ### Unfolding and characterization lemmas for the compiler -/

theorem compileField_succ (rx : String → Bool) (env : Env) (fuel : Nat)
    (f : Field) (role : String) (scope : Scope) (refs : List String) :
    compileField rx env (fuel + 1) f role scope refs
    = compileStep rx env (fun g r sc => compileField rx env fuel g r sc refs)
        f role scope refs := rfl

theorem dict_compile_props_ok (rx : String → Bool) (env : Env) (fuel : Nat)
    (c : CommonAttrs) (pmv : MaybeVar (List (String × MaybeVar Field)))
    (role : String) (scope : Scope) (refs : List String)
    (ps : List (String × MaybeVar Field)) (propsRole : String)
    (defs : Defs) (schema : Schema)
    (hres : maybeResolve2 pmv role = (some ps, propsRole))
    (hcomp : compileField rx env (fuel + 1)
      (.dict c pmv (.plain none) (.plain none) (.plain none) (.plain none))
      role scope refs = .ok (defs, schema)) :
    ∃ req psch,
      processProperties
        (fun g r => compileField rx env fuel g r (scope.alter c.id).2 refs)
        ps propsRole = .ok (defs, req, psch) ∧
      schema = (if req = []
        then setKey (updateCommon [("type", .str "object")] (scope.alter c.id).1 role c)
          "properties" (.obj psch)
        else setKey (setKey (updateCommon [("type", .str "object")] (scope.alter c.id).1 role c)
          "properties" (.obj psch)) "required" (.arr (req.map .str))) := by
  rw [compileField_succ] at hcomp
  simp only [compileStep] at hcomp
  cases hs1 : dictPropsStep
      (fun g r => compileField rx env fuel g r (scope.alter c.id).2 refs)
      pmv role (updateCommon [("type", .str "object")] (scope.alter c.id).1 role c) with
  | error e => simp [hs1, Except.bind, bind] at hcomp
  | ok acc1 =>
    simp only [hs1] at hcomp
    simp [Except.bind, bind, dictPatPropsStep, dictAddPropsStep, maybeResolve2,
      maybeResolve, setOptNum] at hcomp
    unfold dictPropsStep at hs1
    rw [hres] at hs1
    cases hpp : processProperties
        (fun g r => compileField rx env fuel g r (scope.alter c.id).2 refs)
        ps propsRole with
    | error e => simp [hpp, Except.bind, bind] at hs1
    | ok triple =>
      rcases triple with ⟨d, req, psch⟩
      simp only [hpp] at hs1
      simp [Except.bind, bind] at hs1
      rw [← hs1, Prod.mk.injEq] at hcomp
      refine ⟨req, psch, by rw [hcomp.1], hcomp.2.symm⟩

theorem lookupA_eq_none_of_not_mem {α : Type} :
    ∀ (l : List (String × α)) (k : String),
    k ∉ l.map Prod.fst → lookupA l k = none := by
  intro l k
  induction l with
  | nil => intro _; rfl
  | cons hd t ih =>
    rcases hd with ⟨k2, v⟩
    intro hmem
    simp only [List.map_cons, List.mem_cons, not_or] at hmem
    have h2 : ¬ k2 = k := fun h => hmem.1 h.symm
    simp [lookupA, h2, ih hmem.2]

theorem processProperties_spec (go : Field → String → Except CErr (Defs × Schema)) :
    ∀ (props : List (String × MaybeVar Field)) (role : String) (d : Defs)
      (req : List String) (sch : Schema),
    processProperties go props role = .ok (d, req, sch) →
    sch.map Prod.fst
      = props.filterMap (fun pm => (maybeResolve pm.2 role).map (fun _ => pm.1)) ∧
    req = props.filterMap (fun pm =>
      match maybeResolve2 pm.2 role with
      | (none, _) => none
      | (some g, grole) =>
        if maybeResolve g.requiredAttr grole = some true then some pm.1 else none) := by
  intro props
  induction props with
  | nil =>
    intro role d req sch h
    simp [processProperties] at h
    rcases h with ⟨rfl, rfl, rfl⟩
    simp
  | cons pm rest ih =>
    intro role d req sch h
    rcases pm with ⟨prop, mv⟩
    rcases hres : maybeResolve2 mv role with ⟨o, grole⟩
    have hfst := fst_maybeResolve2 mv role
    rw [hres] at hfst
    rcases o with _ | g
    · simp only [processProperties, hres] at h
      obtain ⟨h1, h2⟩ := ih role d req sch h
      refine ⟨?_, ?_⟩
      · simp [List.filterMap_cons, ← hfst, h1]
      · simp [List.filterMap_cons, hres, h2]
    · simp only [processProperties, hres] at h
      cases hgo : go g grole with
      | error e => simp [hgo, Except.bind, bind] at h
      | ok pr =>
        rcases pr with ⟨gd, gs⟩
        simp only [hgo] at h
        cases hrest : processProperties go rest role with
        | error e => simp [hrest, Except.bind, bind] at h
        | ok trip =>
          rcases trip with ⟨rd, rreq, rsch⟩
          simp only [hrest] at h
          simp [Except.bind, bind] at h
          obtain ⟨hd, hreq, hsch⟩ := h
          obtain ⟨h1, h2⟩ := ih role rd rreq rsch hrest
          refine ⟨?_, ?_⟩
          · rw [← hsch]
            simp [List.filterMap_cons, ← hfst, h1]
          · rw [← hreq]
            by_cases hb : maybeResolve g.requiredAttr grole = some true <;>
              simp [List.filterMap_cons, hres, hb, h2]

theorem processProperties_lookup (go : Field → String → Except CErr (Defs × Schema)) :
    ∀ (props : List (String × MaybeVar Field)) (role : String) (d : Defs)
      (req : List String) (sch : Schema) (n : String) (mv : MaybeVar Field),
    processProperties go props role = .ok (d, req, sch) →
    (n, mv) ∈ props → (props.map Prod.fst).Nodup →
    ((maybeResolve mv role = none → lookupA sch n = none) ∧
     (∀ g, maybeResolve mv role = some g →
       ∃ gd gs, go g (maybeResolve2 mv role).2 = .ok (gd, gs) ∧
         lookupA sch n = some (.obj gs))) := by
  intro props
  induction props with
  | nil =>
    intro role d req sch n mv h hmem
    simp at hmem
  | cons pm rest ih =>
    intro role d req sch n mv h hmem hnd
    rcases pm with ⟨prop, pmv⟩
    simp only [List.map_cons, List.nodup_cons] at hnd
    rcases List.mem_cons.mp hmem with hhd | htl
    · -- the property is the head entry
      injection hhd with hn hmv
      subst hn
      subst hmv
      rcases hres : maybeResolve2 mv role with ⟨o, grole⟩
      have hfst := fst_maybeResolve2 mv role
      rw [hres] at hfst
      rcases o with _ | g
      · simp only [processProperties, hres] at h
        refine ⟨fun _ => ?_, fun g hg => ?_⟩
        · -- the schema only contains names of the remaining properties
          obtain ⟨hsch, _⟩ := processProperties_spec go rest role d req sch h
          apply lookupA_eq_none_of_not_mem
          rw [hsch]
          intro hin
          rcases List.mem_filterMap.mp hin with ⟨pm2, hpm2, hmap⟩
          rcases Option.map_eq_some'.mp hmap with ⟨g2, _, hfst2⟩
          exact hnd.1 (hfst2 ▸ List.mem_map_of_mem Prod.fst hpm2)
        · rw [← hfst] at hg
          exact absurd hg (by simp)
      · simp only [processProperties, hres] at h
        cases hgo : go g grole with
        | error e => simp [hgo, Except.bind, bind] at h
        | ok pr =>
          rcases pr with ⟨gd, gs⟩
          simp only [hgo] at h
          cases hrest : processProperties go rest role with
          | error e => simp [hrest, Except.bind, bind] at h
          | ok trip =>
            rcases trip with ⟨rd, rreq, rsch⟩
            simp only [hrest] at h
            simp [Except.bind, bind] at h
            obtain ⟨hd, hreq, hsch⟩ := h
            refine ⟨fun hc => ?_, fun g2 hg2 => ?_⟩
            · rw [← hfst] at hc
              exact absurd hc (by simp)
            · rw [← hfst] at hg2
              injection hg2 with hg2
              subst hg2
              refine ⟨gd, gs, hgo, ?_⟩
              rw [← hsch]
              simp [lookupA]
    · -- the property is in the tail; its name differs from the head name
      have hne : n ≠ prop := by
        intro hn
        exact hnd.1 (hn ▸ List.mem_map_of_mem Prod.fst htl)
      rcases hres : maybeResolve2 pmv role with ⟨o, grole⟩
      rcases o with _ | g
      · simp only [processProperties, hres] at h
        exact ih role d req sch n mv h htl hnd.2
      · simp only [processProperties, hres] at h
        cases hgo : go g grole with
        | error e => simp [hgo, Except.bind, bind] at h
        | ok pr =>
          rcases pr with ⟨gd, gs⟩
          simp only [hgo] at h
          cases hrest : processProperties go rest role with
          | error e => simp [hrest, Except.bind, bind] at h
          | ok trip =>
            rcases trip with ⟨rd, rreq, rsch⟩
            simp only [hrest] at h
            simp [Except.bind, bind] at h
            obtain ⟨hd, hreq, hsch⟩ := h
            obtain ⟨iha, ihb⟩ := ih role rd rreq rsch n mv hrest htl hnd.2
            have hne2 : ¬ prop = n := fun h => hne h.symm
            refine ⟨fun hc => ?_, fun g2 hg2 => ?_⟩
            · rw [← hsch]
              simp [lookupA, hne2, iha hc]
            · rcases ihb g2 hg2 with ⟨gd2, gs2, hgo2, hlk⟩
              refine ⟨gd2, gs2, hgo2, ?_⟩
              rw [← hsch]
              simp [lookupA, hne2, hlk]

/-- `DictField.__init__` (src lines 404-411): the arguments are stored as
attributes; no validation of any kind is performed. -/
def dictInit (props patProps : MaybeVar (List (String × MaybeVar Field)))
    (addProps : MaybeVar AddProps) (minP maxP : MaybeVar Int)
    (c : CommonAttrs) : Except CErr Field :=
  .ok (.dict c props patProps addProps minP maxP)

/-- `DocumentField.__init__` (src lines 585-592): stores `document_cls` and
`as_ref`, sets `owner_cls` to `None`; no validation is performed. -/
def documentFieldInit (docCls : MaybeVar String) (asRef : Bool)
    (req : MaybeVar Bool) : Except CErr Field :=
  .ok (.docF req docCls asRef none)

theorem document_compile_props_ok (go : Field → String → Except CErr (Defs × Schema))
    (doc : Document) (role : String) (defs : Defs) (dsch : Schema)
    (hcomp : compileDocument go doc role = .ok (defs, dsch)) :
    ∃ req psch,
      processProperties go doc.properties role = .ok (defs, req, psch) ∧
      dsch = (if req = []
        then setKey (setKey (setOptStr (setOptStr [("type", .str "object")]
            "title" doc.title) "description" doc.description)
          "additionalProperties" (.bool doc.additionalProps)) "properties" (.obj psch)
        else setKey (setKey (setKey (setOptStr (setOptStr [("type", .str "object")]
            "title" doc.title) "description" doc.description)
          "additionalProperties" (.bool doc.additionalProps)) "properties" (.obj psch))
          "required" (.arr (req.map .str))) := by
  unfold compileDocument at hcomp
  cases hpp : processProperties go doc.properties role with
  | error e =>
    simp only [hpp] at hcomp
    simp [Except.bind, bind] at hcomp
  | ok trip =>
    rcases trip with ⟨d, req, psch⟩
    simp only [hpp] at hcomp
    simp [Except.bind, bind] at hcomp
    refine ⟨req, psch, by rw [hcomp.1], hcomp.2.symm⟩

/-- C1: `Var.resolve` scans the predicate list in declared order and returns
the value of the first matching predicate: a literal matches exactly its
role name, `Not(R)` matches every role except `R`, a catch-all matches
anything, and no match yields absent.  In particular a `Var` whose first
entry is `Not("role_3")` resolves to that value for every role other than
`"role_3"` (even when a later entry names the queried role literally) and
resolves to absent for `"role_3"` when no later entry matches. -/
theorem claim_C1 (α : Type) :
    (∀ (xs : List (RolePred × α)) (p : RolePred) (v : α)
       (ys : List (RolePred × α)) (r : String),
      (∀ q ∈ xs, rolePredMatches q.1 r = false) → rolePredMatches p r = true →
      resolveList (xs ++ (p, v) :: ys) r = some v) ∧
    (∀ (l : List (RolePred × α)) (r : String),
      (∀ q ∈ l, rolePredMatches q.1 r = false) → resolveList l r = none) ∧
    (∀ s r : String, rolePredMatches (.lit s) r = true ↔ s = r) ∧
    (∀ s r : String, rolePredMatches (.negated s) r = true ↔ r ≠ s) ∧
    (∀ r : String, rolePredMatches .catchAll r = true) ∧
    (∀ (v3 : α) (rest : List (RolePred × α)) (pd : List String) (r : String),
      r ≠ "role_3" →
      VarSpec.resolve ⟨(.negated "role_3", v3) :: rest, pd⟩ r = some v3) ∧
    (∀ (v3 : α) (rest : List (RolePred × α)) (pd : List String),
      (∀ q ∈ rest, rolePredMatches q.1 "role_3" = false) →
      VarSpec.resolve ⟨(.negated "role_3", v3) :: rest, pd⟩ "role_3" = none) := by
  have hfirst : ∀ (xs : List (RolePred × α)) (p : RolePred) (v : α)
      (ys : List (RolePred × α)) (r : String),
      (∀ q ∈ xs, rolePredMatches q.1 r = false) → rolePredMatches p r = true →
      resolveList (xs ++ (p, v) :: ys) r = some v := by
    intro xs p v ys r hxs hp
    induction xs with
    | nil => simp [resolveList, hp]
    | cons q t ih =>
      have hq := hxs q (by simp)
      simp only [List.cons_append, resolveList, hq, Bool.false_eq_true, if_false]
      exact ih (fun q2 hq2 => hxs q2 (by simp [hq2]))
  have hnone : ∀ (l : List (RolePred × α)) (r : String),
      (∀ q ∈ l, rolePredMatches q.1 r = false) → resolveList l r = none := by
    intro l r hl
    induction l with
    | nil => rfl
    | cons q t ih =>
      have hq := hl q (by simp)
      simp only [resolveList, hq, Bool.false_eq_true, if_false]
      exact ih (fun q2 hq2 => hl q2 (by simp [hq2]))
  refine ⟨hfirst, hnone, ?_, ?_, ?_, ?_, ?_⟩
  · intro s r
    simp [rolePredMatches]
  · intro s r
    simp [rolePredMatches]
    exact ne_comm
  · intro r
    rfl
  · intro v3 rest pd r hr
    have : rolePredMatches (.negated "role_3") r = true := by
      simp [rolePredMatches]
      exact fun h => hr h.symm
    simp [VarSpec.resolve, resolveList, this]
  · intro v3 rest pd hrest
    have hm : rolePredMatches (.negated "role_3") "role_3" = false := by
      simp [rolePredMatches]
    simp only [VarSpec.resolve, resolveList, hm, Bool.false_eq_true, if_false]
    exact hnone rest "role_3" hrest

/-- Witness for C1, at the concrete `Var` of `test_var`: the negated head
matches `"role_1"` even though a later entry names it, and `"role_3"`
resolves to absent. -/
theorem claim_C1_witness :
    VarSpec.resolve ⟨[(.negated "role_3", 3), (.lit "role_1", 1),
      (.lit "role_2", 2)], []⟩ "role_1" = some 3 ∧
    VarSpec.resolve (α := Nat) ⟨[(.negated "role_3", 3), (.lit "role_1", 1),
      (.lit "role_2", 2)], []⟩ "role_3" = none :=
  ⟨(claim_C1 Nat).2.2.2.2.2.1 3 [(.lit "role_1", 1), (.lit "role_2", 2)] []
      "role_1" (by decide),
   (claim_C1 Nat).2.2.2.2.2.2 3 [(.lit "role_1", 1), (.lit "role_2", 2)] []
      (by decide)⟩

/-- C10: for every NumberField/IntField, a truthy `exclusive_minimum` is
written under the misspelled key `exclusiveMinumum`, never under the
draft-4 keyword `exclusiveMinimum`, while a truthy `exclusive_maximum`
is written under the correct `exclusiveMaximum`; falsy values produce no
key. -/
theorem claim_C10 (rx : String → Bool) (env : Env) (fuel : Nat)
    (numType : String) (c : CommonAttrs) (mo mi ma : MaybeVar Int)
    (emin emax : MaybeVar Bool) (role : String) (scope : Scope)
    (refs : List String) :
    ∃ s, compileField rx env (fuel + 1)
        (.number numType c mo mi ma emin emax) role scope refs = .ok ([], s) ∧
      lookupA s "exclusiveMinumum"
        = (match maybeResolve emin role with
           | some true => some (.bool true)
           | _ => none) ∧
      lookupA s "exclusiveMinimum" = none ∧
      lookupA s "exclusiveMaximum"
        = (match maybeResolve emax role with
           | some true => some (.bool true)
           | _ => none) := by
  refine ⟨setIfTrue (setOptNum (setIfTrue (setOptNum (setOptNum
      (updateCommon [("type", .str numType)] (scope.alter c.id).1 role c)
      "multipleOf" (maybeResolve mo role)) "minimum" (maybeResolve mi role))
      "exclusiveMinumum" (maybeResolve emin role)) "maximum"
      (maybeResolve ma role)) "exclusiveMaximum" (maybeResolve emax role),
    rfl, ?_, ?_, ?_⟩
  · rw [lookupA_setIfTrue_ne _ _ _ _ (by decide),
      lookupA_setOptNum_ne _ _ _ _ (by decide), lookupA_setIfTrue_same]
    rcases hm : maybeResolve emin role with _ | b
    · rw [lookupA_setOptNum_ne _ _ _ _ (by decide),
        lookupA_setOptNum_ne _ _ _ _ (by decide),
        lookupA_updateCommon_ne _ _ _ _ _ (by decide) (by decide) (by decide)
          (by decide) (by decide)]
      rfl
    · cases b
      · rw [lookupA_setOptNum_ne _ _ _ _ (by decide),
          lookupA_setOptNum_ne _ _ _ _ (by decide),
          lookupA_updateCommon_ne _ _ _ _ _ (by decide) (by decide) (by decide)
            (by decide) (by decide)]
        rfl
      · rfl
  · rw [lookupA_setIfTrue_ne _ _ _ _ (by decide),
      lookupA_setOptNum_ne _ _ _ _ (by decide),
      lookupA_setIfTrue_ne _ _ _ _ (by decide),
      lookupA_setOptNum_ne _ _ _ _ (by decide),
      lookupA_setOptNum_ne _ _ _ _ (by decide),
      lookupA_updateCommon_ne _ _ _ _ _ (by decide) (by decide) (by decide)
        (by decide) (by decide)]
    rfl
  · rw [lookupA_setIfTrue_same]
    rcases hm : maybeResolve emax role with _ | b
    · rw [lookupA_setOptNum_ne _ _ _ _ (by decide),
        lookupA_setIfTrue_ne _ _ _ _ (by decide),
        lookupA_setOptNum_ne _ _ _ _ (by decide),
        lookupA_setOptNum_ne _ _ _ _ (by decide),
        lookupA_updateCommon_ne _ _ _ _ _ (by decide) (by decide) (by decide)
          (by decide) (by decide)]
      rfl
    · cases b
      · rw [lookupA_setOptNum_ne _ _ _ _ (by decide),
          lookupA_setIfTrue_ne _ _ _ _ (by decide),
          lookupA_setOptNum_ne _ _ _ _ (by decide),
          lookupA_setOptNum_ne _ _ _ _ (by decide),
          lookupA_updateCommon_ne _ _ _ _ _ (by decide) (by decide) (by decide)
            (by decide) (by decide)]
        rfl
      · rfl

/-- C2: when a DictField's properties `Var` declares roles to pass down and
is resolved under a queried role in that set, every nested `Var` inside the
resolved properties map is itself resolved under the queried role; when the
queried role is not in the set, nested `Var`s are resolved under the
default role (`resolve_2` returns that effective descent role). -/
theorem claim_C2 (rx : String → Bool) (env : Env) (fuel : Nat)
    (c : CommonAttrs) (v : VarSpec (List (String × MaybeVar Field)))
    (role : String) (scope : Scope) (refs : List String)
    (ps : List (String × MaybeVar Field)) (n : String) (w : VarSpec Field)
    (defs : Defs) (schema : Schema) (eff : String)
    (heff : eff = if v.propagated.contains role then role else DEFAULT_ROLE)
    (hres : v.resolve role = some ps)
    (hmem : (n, .var w) ∈ ps)
    (hnd : (ps.map Prod.fst).Nodup)
    (hcomp : compileField rx env (fuel + 1)
      (.dict c (.var v) (.plain none) (.plain none) (.plain none) (.plain none))
      role scope refs = .ok (defs, schema)) :
    ∃ psch, lookupA schema "properties" = some (.obj psch) ∧
      (w.resolve eff = none → lookupA psch n = none) ∧
      (∀ g, w.resolve eff = some g →
        ∃ gd gs, compileField rx env fuel g (w.resolve2 eff).2
            (scope.alter c.id).2 refs = .ok (gd, gs) ∧
          lookupA psch n = some (.obj gs)) := by
  have hres2 : maybeResolve2 (.var v) role = (some ps, eff) := by
    simp [maybeResolve2, VarSpec.resolve2, hres, heff]
  obtain ⟨req, psch, hpp, hsch⟩ :=
    dict_compile_props_ok rx env fuel c (.var v) role scope refs ps eff
      defs schema hres2 hcomp
  obtain ⟨ha, hb⟩ :=
    processProperties_lookup
      (fun g r => compileField rx env fuel g r (scope.alter c.id).2 refs)
      ps eff defs req psch n (.var w) hpp hmem hnd
  refine ⟨psch, ?_, ?_, ?_⟩
  · rw [hsch]
    by_cases hr : req = []
    · simp [hr, lookupA_setKey_same]
    · rw [if_neg hr,
        lookupA_setKey_ne _ _ _ _ (show ("required" : String) ≠ "properties" by decide),
        lookupA_setKey_same]
  · intro hnone
    exact ha hnone
  · intro g hg
    exact hb g hg

/-- Witness for C2, at the properties `Var` of `test_dict_field`: under
role `"role_2"`, which is not in the pass-down set, the nested `Var`
resolves under the default role and the property is omitted; under role
`"role_1"`, which is in the set, the nested `Var` resolves under
`"role_1"` and the property is emitted. -/
theorem claim_C2_witness :
    (∃ psch, lookupA [("type", JValue.str "object"), ("properties", .obj [])]
        "properties" = some (.obj psch) ∧
      (VarSpec.resolve ⟨[(.lit "role_2",
          Field.string {} (.plain none) (.plain none) (.plain none) (.plain none))], []⟩
          "default" = none →
        lookupA psch "name" = none) ∧
      (∀ g, VarSpec.resolve ⟨[(.lit "role_2",
          Field.string {} (.plain none) (.plain none) (.plain none) (.plain none))], []⟩
          "default" = some g →
        ∃ gd gs, compileField (fun _ => true) [] 1 g
            (VarSpec.resolve2 ⟨[(.lit "role_2",
              Field.string {} (.plain none) (.plain none) (.plain none) (.plain none))], []⟩
              "default").2 (Scope.alter {} "").2 [] = .ok (gd, gs) ∧
          lookupA psch "name" = some (.obj gs))) ∧
    (∃ psch, lookupA [("type", JValue.str "object"),
        ("properties", .obj [("name", .obj [("type", JValue.str "string")])])]
        "properties" = some (.obj psch) ∧
      (VarSpec.resolve ⟨[(.lit "role_1",
          Field.string {} (.plain none) (.plain none) (.plain none) (.plain none))], []⟩
          "role_1" = none →
        lookupA psch "name" = none) ∧
      (∀ g, VarSpec.resolve ⟨[(.lit "role_1",
          Field.string {} (.plain none) (.plain none) (.plain none) (.plain none))], []⟩
          "role_1" = some g →
        ∃ gd gs, compileField (fun _ => true) [] 1 g
            (VarSpec.resolve2 ⟨[(.lit "role_1",
              Field.string {} (.plain none) (.plain none) (.plain none) (.plain none))], []⟩
              "role_1").2 (Scope.alter {} "").2 [] = .ok (gd, gs) ∧
          lookupA psch "name" = some (.obj gs))) :=
  ⟨claim_C2 (fun _ => true) [] 1 {}
      ⟨[(.lit "role_1", [("name", .var ⟨[(.lit "role_1",
          Field.string {} (.plain none) (.plain none) (.plain none) (.plain none))], []⟩)]),
        (.lit "role_2", [("name", .var ⟨[(.lit "role_2",
          Field.string {} (.plain none) (.plain none) (.plain none) (.plain none))], []⟩)])],
       ["role_1"]⟩
      "role_2" {} []
      [("name", .var ⟨[(.lit "role_2",
        Field.string {} (.plain none) (.plain none) (.plain none) (.plain none))], []⟩)]
      "name"
      ⟨[(.lit "role_2",
        Field.string {} (.plain none) (.plain none) (.plain none) (.plain none))], []⟩
      [] [("type", JValue.str "object"), ("properties", .obj [])] "default"
      rfl rfl (by simp) (by simp) rfl,
   claim_C2 (fun _ => true) [] 1 {}
      ⟨[(.lit "role_1", [("name", .var ⟨[(.lit "role_1",
          Field.string {} (.plain none) (.plain none) (.plain none) (.plain none))], []⟩)]),
        (.lit "role_2", [("name", .var ⟨[(.lit "role_2",
          Field.string {} (.plain none) (.plain none) (.plain none) (.plain none))], []⟩)])],
       ["role_1"]⟩
      "role_1" {} []
      [("name", .var ⟨[(.lit "role_1",
        Field.string {} (.plain none) (.plain none) (.plain none) (.plain none))], []⟩)]
      "name"
      ⟨[(.lit "role_1",
        Field.string {} (.plain none) (.plain none) (.plain none) (.plain none))], []⟩
      [] [("type", JValue.str "object"),
        ("properties", .obj [("name", .obj [("type", JValue.str "string")])])] "role_1"
      rfl rfl (by simp) (by simp) rfl⟩

/-- C3: for a DictField or a Document object schema compiled under a role:
a property whose field resolves to absent appears in neither `properties`
nor `required`; a resolved property is listed in `required` exactly when
its own `required` attribute resolves truthy under the field's effective
role; and the `required` key is emitted only when that list is non-empty. -/
theorem claim_C3 :
    (∀ (rx : String → Bool) (env : Env) (fuel : Nat) (c : CommonAttrs)
       (ps : List (String × MaybeVar Field)) (role : String) (scope : Scope)
       (refs : List String) (defs : Defs) (schema : Schema),
      compileField rx env (fuel + 1)
        (.dict c (.plain (some ps)) (.plain none) (.plain none) (.plain none)
          (.plain none)) role scope refs = .ok (defs, schema) →
      ∃ psch req,
        lookupA schema "properties" = some (.obj psch) ∧
        psch.map Prod.fst
          = ps.filterMap (fun pm => (maybeResolve pm.2 role).map (fun _ => pm.1)) ∧
        req = ps.filterMap (fun pm =>
          match maybeResolve2 pm.2 role with
          | (none, _) => none
          | (some g, grole) =>
            if maybeResolve g.requiredAttr grole = some true then some pm.1
            else none) ∧
        lookupA schema "required"
          = (if req = [] then none else some (.arr (req.map .str)))) ∧
    (∀ (go : Field → String → Except CErr (Defs × Schema)) (doc : Document)
       (role : String) (defs : Defs) (dsch : Schema),
      compileDocument go doc role = .ok (defs, dsch) →
      ∃ psch req,
        lookupA dsch "properties" = some (.obj psch) ∧
        psch.map Prod.fst = doc.properties.filterMap
          (fun pm => (maybeResolve pm.2 role).map (fun _ => pm.1)) ∧
        req = doc.properties.filterMap (fun pm =>
          match maybeResolve2 pm.2 role with
          | (none, _) => none
          | (some g, grole) =>
            if maybeResolve g.requiredAttr grole = some true then some pm.1
            else none) ∧
        lookupA dsch "required"
          = (if req = [] then none else some (.arr (req.map .str)))) := by
  constructor
  · intro rx env fuel c ps role scope refs defs schema hcomp
    obtain ⟨req, psch, hpp, hsch⟩ :=
      dict_compile_props_ok rx env fuel c (.plain (some ps)) role scope refs
        ps role defs schema rfl hcomp
    obtain ⟨h1, h2⟩ := processProperties_spec _ ps role defs req psch hpp
    refine ⟨psch, req, ?_, h1, h2, ?_⟩
    · rw [hsch]
      by_cases hr : req = []
      · simp [hr, lookupA_setKey_same]
      · rw [if_neg hr,
          lookupA_setKey_ne _ _ _ _ (show ("required" : String) ≠ "properties" by decide),
          lookupA_setKey_same]
    · rw [hsch]
      by_cases hr : req = []
      · rw [if_pos hr, if_pos hr,
          lookupA_setKey_ne _ _ _ _ (show ("properties" : String) ≠ "required" by decide),
          lookupA_updateCommon_ne _ _ _ _ _ (by decide) (by decide) (by decide)
            (by decide) (by decide)]
        rfl
      · rw [if_neg hr, if_neg hr, lookupA_setKey_same]
  · intro go doc role defs dsch hcomp
    obtain ⟨req, psch, hpp, hsch⟩ :=
      document_compile_props_ok go doc role defs dsch hcomp
    obtain ⟨h1, h2⟩ := processProperties_spec _ doc.properties role defs req psch hpp
    refine ⟨psch, req, ?_, h1, h2, ?_⟩
    · rw [hsch]
      by_cases hr : req = []
      · simp [hr, lookupA_setKey_same]
      · rw [if_neg hr,
          lookupA_setKey_ne _ _ _ _ (show ("required" : String) ≠ "properties" by decide),
          lookupA_setKey_same]
    · rw [hsch]
      by_cases hr : req = []
      · rw [if_pos hr, if_pos hr,
          lookupA_setKey_ne _ _ _ _ (show ("properties" : String) ≠ "required" by decide),
          lookupA_setKey_ne _ _ _ _ (show ("additionalProperties" : String) ≠ "required" by decide),
          lookupA_setOptStr_ne _ _ _ _ (show ("description" : String) ≠ "required" by decide),
          lookupA_setOptStr_ne _ _ _ _ (show ("title" : String) ≠ "required" by decide)]
        rfl
      · rw [if_neg hr, if_neg hr, lookupA_setKey_same]

/-- Witness for C3, at the example of the spec: properties
`a` required, `b` optional, `c` absent under the queried role compile to
`properties` listing exactly `a` and `b` and `required` listing exactly
`a`. -/
theorem claim_C3_witness :
    ∃ psch req,
      lookupA [("type", JValue.str "object"),
        ("properties", JValue.obj [("a", .obj [("type", JValue.str "string")]),
          ("b", .obj [("type", JValue.str "string")])]),
        ("required", JValue.arr [.str "a"])] "properties" = some (.obj psch) ∧
      psch.map Prod.fst
        = ([("a", MaybeVar.plain (some (Field.string
              { required := .plain (some true) } (.plain none) (.plain none)
              (.plain none) (.plain none)))),
            ("b", MaybeVar.plain (some (Field.string {} (.plain none)
              (.plain none) (.plain none) (.plain none)))),
            ("c", MaybeVar.var ⟨[(.lit "other", Field.string {} (.plain none)
              (.plain none) (.plain none) (.plain none))], []⟩)].filterMap
            (fun pm => (maybeResolve pm.2 "x").map (fun _ => pm.1))) ∧
      req = ([("a", MaybeVar.plain (some (Field.string
              { required := .plain (some true) } (.plain none) (.plain none)
              (.plain none) (.plain none)))),
            ("b", MaybeVar.plain (some (Field.string {} (.plain none)
              (.plain none) (.plain none) (.plain none)))),
            ("c", MaybeVar.var ⟨[(.lit "other", Field.string {} (.plain none)
              (.plain none) (.plain none) (.plain none))], []⟩)].filterMap
            (fun pm =>
              match maybeResolve2 pm.2 "x" with
              | (none, _) => none
              | (some g, grole) =>
                if maybeResolve g.requiredAttr grole = some true then some pm.1
                else none)) ∧
      lookupA [("type", JValue.str "object"),
        ("properties", JValue.obj [("a", .obj [("type", JValue.str "string")]),
          ("b", .obj [("type", JValue.str "string")])]),
        ("required", JValue.arr [.str "a"])] "required"
        = (if req = [] then none else some (.arr (req.map .str))) :=
  claim_C3.1 (fun _ => true) [] 1 {}
    [("a", MaybeVar.plain (some (Field.string
        { required := .plain (some true) } (.plain none) (.plain none)
        (.plain none) (.plain none)))),
     ("b", MaybeVar.plain (some (Field.string {} (.plain none)
        (.plain none) (.plain none) (.plain none)))),
     ("c", MaybeVar.var ⟨[(.lit "other", Field.string {} (.plain none)
        (.plain none) (.plain none) (.plain none))], []⟩)]
    "x" {} [] []
    [("type", JValue.str "object"),
     ("properties", JValue.obj [("a", .obj [("type", JValue.str "string")]),
        ("b", .obj [("type", JValue.str "string")])]),
     ("required", JValue.arr [.str "a"])]
    rfl

/-- The common attributes in an emitted schema are exactly those that
resolve to a present (truthy, for enum) value under `role`. -/
def commonResolved (s : Schema) (c : CommonAttrs) (role : String) : Prop :=
  lookupA s "title" = (maybeResolve c.title role).map JValue.str ∧
  lookupA s "description" = (maybeResolve c.description role).map JValue.str ∧
  lookupA s "enum" = (match (maybeResolve c.enum role).map Lazy.force with
    | some l => if l.isEmpty then none else some (JValue.arr l)
    | none => none) ∧
  lookupA s "default" = (maybeResolve c.default role).map Lazy.force

theorem lookupA_setId_ne (s : Schema) (id k : String) (h : ¬ "id" = k) :
    lookupA (if id = "" then s else setKey s "id" (.str id)) k = lookupA s k := by
  by_cases hid : id = "" <;> simp [hid, lookupA_setKey_ne _ _ _ _ h]

theorem lookupA_setEnum_same (s : Schema) (o : Option (List JValue)) :
    lookupA (setEnum s o) "enum" =
      (match o with
       | some l => if l.isEmpty then lookupA s "enum" else some (.arr l)
       | none => lookupA s "enum") := by
  rcases o with _ | l
  · simp [setEnum]
  · by_cases hl : l.isEmpty <;> simp [setEnum, hl, lookupA_setKey_same]

theorem lookupA_setDefault_same (s : Schema) (o : Option JValue) :
    lookupA (setDefault s o) "default" =
      (match o with
       | some d => some d
       | none => lookupA s "default") := by
  rcases o with _ | d
  · simp [setDefault]
  · simp [setDefault, lookupA_setKey_same]

theorem commonResolved_updateCommon (s : Schema) (id role : String)
    (c : CommonAttrs) (h1 : lookupA s "title" = none)
    (h2 : lookupA s "description" = none) (h3 : lookupA s "enum" = none)
    (h4 : lookupA s "default" = none) :
    commonResolved (updateCommon s id role c) c role := by
  unfold commonResolved updateCommon
  refine ⟨?_, ?_, ?_, ?_⟩
  · rw [lookupA_setDefault_ne _ _ _ (by decide),
      lookupA_setEnum_ne _ _ _ (by decide),
      lookupA_setOptStr_ne _ _ _ _ (by decide), lookupA_setOptStr_same]
    cases maybeResolve c.title role
    · rw [lookupA_setId_ne _ _ _ (by decide), h1]
      rfl
    · rfl
  · rw [lookupA_setDefault_ne _ _ _ (by decide),
      lookupA_setEnum_ne _ _ _ (by decide), lookupA_setOptStr_same]
    cases maybeResolve c.description role
    · rw [lookupA_setOptStr_ne _ _ _ _ (by decide),
        lookupA_setId_ne _ _ _ (by decide), h2]
      rfl
    · rfl
  · rw [lookupA_setDefault_ne _ _ _ (by decide), lookupA_setEnum_same]
    rcases (maybeResolve c.enum role).map Lazy.force with _ | l
    · rw [lookupA_setOptStr_ne _ _ _ _ (by decide),
        lookupA_setOptStr_ne _ _ _ _ (by decide),
        lookupA_setId_ne _ _ _ (by decide), h3]
    · by_cases hl : l.isEmpty
      · simp only [hl, if_true]
        rw [lookupA_setOptStr_ne _ _ _ _ (by decide),
          lookupA_setOptStr_ne _ _ _ _ (by decide),
          lookupA_setId_ne _ _ _ (by decide), h3]
      · simp [hl]
  · rw [lookupA_setDefault_same]
    rcases (maybeResolve c.default role).map Lazy.force with _ | d
    · rw [lookupA_setEnum_ne _ _ _ (by decide),
        lookupA_setOptStr_ne _ _ _ _ (by decide),
        lookupA_setOptStr_ne _ _ _ _ (by decide),
        lookupA_setId_ne _ _ _ (by decide), h4]
    · rfl

theorem lookupA_ite (P : Prop) [Decidable P] (a b : Schema) (k : String) :
    lookupA (if P then a else b) k
      = if P then lookupA a k else lookupA b k := by
  split <;> simp [*]

theorem commonResolved_of_lookup_eq (s1 s2 : Schema) (c : CommonAttrs)
    (role : String) (hcr : commonResolved s1 c role)
    (ht : lookupA s2 "title" = lookupA s1 "title")
    (hd : lookupA s2 "description" = lookupA s1 "description")
    (he : lookupA s2 "enum" = lookupA s1 "enum")
    (hdf : lookupA s2 "default" = lookupA s1 "default") :
    commonResolved s2 c role := by
  unfold commonResolved at hcr ⊢
  rw [ht, hd, he, hdf]
  exact hcr

theorem dictPropsStep_lookup (go2 : Field → String → Except CErr (Defs × Schema))
    (props : MaybeVar (List (String × MaybeVar Field))) (role : String)
    (schema0 : Schema) (acc : Defs × Schema)
    (h : dictPropsStep go2 props role schema0 = .ok acc) (k : String)
    (h1 : ¬ "properties" = k) (h2 : ¬ "required" = k) :
    lookupA acc.2 k = lookupA schema0 k := by
  unfold dictPropsStep at h
  rcases hres : maybeResolve2 props role with ⟨o, r⟩
  simp only [hres] at h
  rcases o with _ | ps
  · simp at h
    rw [← h]
  · cases hpp : processProperties go2 ps r with
    | error e => simp [hpp, Except.bind, bind] at h
    | ok trip =>
      rcases trip with ⟨d, req, psch⟩
      simp only [hpp] at h
      simp [Except.bind, bind] at h
      rw [← h]
      by_cases hreq : req = [] <;>
        simp [hreq, lookupA_setKey_ne _ _ _ _ h1, lookupA_setKey_ne _ _ _ _ h2]

theorem dictPatPropsStep_lookup (rx : String → Bool)
    (go2 : Field → String → Except CErr (Defs × Schema))
    (patProps : MaybeVar (List (String × MaybeVar Field))) (role : String)
    (acc acc2 : Defs × Schema)
    (h : dictPatPropsStep rx go2 patProps role acc = .ok acc2) (k : String)
    (h1 : ¬ "patternProperties" = k) :
    lookupA acc2.2 k = lookupA acc.2 k := by
  unfold dictPatPropsStep at h
  rcases hres : maybeResolve2 patProps role with ⟨o, r⟩
  simp only [hres] at h
  rcases o with _ | pps
  · simp at h
    rw [← h]
  · cases hfind : pps.find? (fun kv => !rx kv.1) with
    | some kv => simp [hfind] at h
    | none =>
      simp only [hfind] at h
      cases hpp : processProperties go2 pps r with
      | error e => simp [hpp, Except.bind, bind] at h
      | ok trip =>
        rcases trip with ⟨d, req, psch⟩
        simp only [hpp] at h
        simp [Except.bind, bind] at h
        rw [← h]
        simp [lookupA_setKey_ne _ _ _ _ h1]

theorem dictAddPropsStep_lookup
    (go2 : Field → String → Except CErr (Defs × Schema))
    (addProps : MaybeVar AddProps) (role : String) (acc acc2 : Defs × Schema)
    (h : dictAddPropsStep go2 addProps role acc = .ok acc2) (k : String)
    (h1 : ¬ "additionalProperties" = k) :
    lookupA acc2.2 k = lookupA acc.2 k := by
  unfold dictAddPropsStep at h
  rcases hres : maybeResolve2 addProps role with ⟨o, r⟩
  simp only [hres] at h
  rcases o with _ | ap
  · simp at h
    rw [← h]
  · rcases ap with b | g
    · simp at h
      rw [← h]
      simp [lookupA_setKey_ne _ _ _ _ h1]
    · cases hgo : go2 g r with
      | error e => simp [hgo, Except.bind, bind] at h
      | ok pr =>
        rcases pr with ⟨gd, gs⟩
        simp only [hgo] at h
        simp [Except.bind, bind] at h
        rw [← h]
        simp [lookupA_setKey_ne _ _ _ _ h1]

theorem arrayAddItemsStep_lookup
    (go2 : Field → String → Except CErr (Defs × Schema))
    (addI : MaybeVar AddItems) (role : String) (acc acc2 : Defs × Schema)
    (h : arrayAddItemsStep go2 addI role acc = .ok acc2) (k : String)
    (h1 : ¬ "additionalItems" = k) :
    lookupA acc2.2 k = lookupA acc.2 k := by
  unfold arrayAddItemsStep at h
  rcases hres : maybeResolve2 addI role with ⟨o, r⟩
  simp only [hres] at h
  rcases o with _ | ai
  · simp at h
    rw [← h]
  · rcases ai with b | g
    · simp at h
      rw [← h]
      simp [lookupA_setKey_ne _ _ _ _ h1]
    · cases hgo : go2 g r with
      | error e => simp [hgo, Except.bind, bind] at h
      | ok pr =>
        rcases pr with ⟨gd, gs⟩
        simp only [hgo] at h
        simp [Except.bind, bind] at h
        rw [← h]
        simp [lookupA_setKey_ne _ _ _ _ h1]

theorem arrayItemsStep_lookup_present
    (go2 : Field → String → Except CErr (Defs × Schema))
    (items : MaybeVar Items) (role id : String) (c : CommonAttrs)
    (base : Schema) (acc : Defs × Schema)
    (h : arrayItemsStep go2 items role id c base = .ok acc)
    (hsome : (maybeResolve items role).isSome) (k : String)
    (h1 : ¬ "items" = k) :
    lookupA acc.2 k = lookupA (updateCommon base id role c) k := by
  unfold arrayItemsStep at h
  rcases hres : maybeResolve2 items role with ⟨o, r⟩
  have hfst := fst_maybeResolve2 items role
  rw [hres] at hfst
  simp only [hres] at h
  rcases o with _ | its
  · rw [← hfst] at hsome
    simp at hsome
  · rcases its with g | l
    · cases hgo : go2 g r with
      | error e => simp [hgo, Except.bind, bind] at h
      | ok pr =>
        rcases pr with ⟨gd, gs⟩
        simp only [hgo] at h
        simp [Except.bind, bind] at h
        rw [← h]
        simp [lookupA_setKey_ne _ _ _ _ h1]
    · rcases items with v | v
      case plain =>
        rcases v with _ | it2
        · simp at h
        · rcases it2 with g2 | l2
          · simp at h
          · simp only [] at h
            cases hic : arrayItemsC go2 l2 role with
            | error e => simp [hic, Except.bind, bind] at h
            | ok pr =>
              rcases pr with ⟨gd, ls⟩
              simp only [hic] at h
              simp [Except.bind, bind] at h
              rw [← h]
              simp [lookupA_setKey_ne _ _ _ _ h1]
      case var => simp at h

theorem arrayItemsStep_absent
    (go2 : Field → String → Except CErr (Defs × Schema))
    (items : MaybeVar Items) (role id : String) (c : CommonAttrs)
    (base : Schema) (acc : Defs × Schema)
    (h : arrayItemsStep go2 items role id c base = .ok acc)
    (hnone : maybeResolve items role = none) :
    acc.2 = base := by
  unfold arrayItemsStep at h
  rcases hres : maybeResolve2 items role with ⟨o, r⟩
  have hfst := fst_maybeResolve2 items role
  rw [hres] at hfst
  rw [hnone] at hfst
  simp only [hres] at h
  rcases o with _ | its
  · simp at h
    rw [← h]
  · simp at hfst

/-- Counterexample for C7: a OneOf field resolves its common attributes
under the default role, not the queried one -- a title declared only for
the default role is written into the schema even though it resolves to
absent under the queried role `"role_1"`. -/
theorem claim_C7_counterexample :
    compileField (fun _ => true) [] 1
      (.ofKind "oneOf" { title := .var ⟨[(.lit "default", "D")], []⟩ }
        (.plain (some []))) "role_1" {} []
      = .ok ([], [("oneOf", .arr []), ("title", .str "D")]) ∧
    VarSpec.resolve (α := String) ⟨[(.lit "default", "D")], []⟩ "role_1"
      = none :=
  ⟨rfl, rfl⟩

/-- C7 as amended: every schema-bearing variant resolves `title`,
`description`, `enum` and `default` (evaluating callables) and writes
exactly the present-resolving ones -- under the queried role for
Boolean/String/Number/Dict/Not fields and for an Array field whose items
resolve present; but OneOf/AnyOf/AllOf fields resolve these attributes
under the default role (`BaseOfField` passes no role to the common-fields
update), and an Array field whose items resolve absent writes none of
them. -/
theorem claim_C7_amended :
    (∀ (rx : String → Bool) (env : Env) (fuel : Nat) (c : CommonAttrs)
       (role : String) (scope : Scope) (refs : List String),
      ∃ s, compileField rx env (fuel + 1) (.boolean c) role scope refs
          = .ok ([], s) ∧ commonResolved s c role) ∧
    (∀ (rx : String → Bool) (env : Env) (fuel : Nat) (c : CommonAttrs)
       (pat fmt : MaybeVar String) (minL maxL : MaybeVar Int) (role : String)
       (scope : Scope) (refs : List String),
      ∃ s, compileField rx env (fuel + 1) (.string c pat fmt minL maxL)
          role scope refs = .ok ([], s) ∧ commonResolved s c role) ∧
    (∀ (rx : String → Bool) (env : Env) (fuel : Nat) (numType : String)
       (c : CommonAttrs) (mo mi ma : MaybeVar Int) (emin emax : MaybeVar Bool)
       (role : String) (scope : Scope) (refs : List String),
      ∃ s, compileField rx env (fuel + 1) (.number numType c mo mi ma emin emax)
          role scope refs = .ok ([], s) ∧ commonResolved s c role) ∧
    (∀ (rx : String → Bool) (env : Env) (fuel : Nat) (c : CommonAttrs)
       (props patProps : MaybeVar (List (String × MaybeVar Field)))
       (addProps : MaybeVar AddProps) (minP maxP : MaybeVar Int)
       (role : String) (scope : Scope) (refs : List String) (defs : Defs)
       (schema : Schema),
      compileField rx env (fuel + 1) (.dict c props patProps addProps minP maxP)
        role scope refs = .ok (defs, schema) → commonResolved schema c role) ∧
    (∀ (rx : String → Bool) (env : Env) (fuel : Nat) (c : CommonAttrs)
       (mvf : MaybeVar Field) (role : String) (scope : Scope)
       (refs : List String) (defs : Defs) (schema : Schema),
      compileField rx env (fuel + 1) (.notF c mvf) role scope refs
        = .ok (defs, schema) → commonResolved schema c role) ∧
    (∀ (rx : String → Bool) (env : Env) (fuel : Nat) (keyword : String)
       (c : CommonAttrs) (flds : MaybeVar (List (MaybeVar Field)))
       (role : String) (scope : Scope) (refs : List String) (defs : Defs)
       (schema : Schema),
      (keyword = "oneOf" ∨ keyword = "anyOf" ∨ keyword = "allOf") →
      compileField rx env (fuel + 1) (.ofKind keyword c flds) role scope refs
        = .ok (defs, schema) → commonResolved schema c DEFAULT_ROLE) ∧
    (∀ (rx : String → Bool) (env : Env) (fuel : Nat) (c : CommonAttrs)
       (items : MaybeVar Items) (minI maxI : MaybeVar Int)
       (uniq : MaybeVar Bool) (addI : MaybeVar AddItems) (role : String)
       (scope : Scope) (refs : List String) (defs : Defs) (schema : Schema),
      (maybeResolve items role).isSome →
      compileField rx env (fuel + 1) (.array c items minI maxI uniq addI)
        role scope refs = .ok (defs, schema) → commonResolved schema c role) ∧
    (∀ (rx : String → Bool) (env : Env) (fuel : Nat) (c : CommonAttrs)
       (items : MaybeVar Items) (minI maxI : MaybeVar Int)
       (uniq : MaybeVar Bool) (addI : MaybeVar AddItems) (role : String)
       (scope : Scope) (refs : List String) (defs : Defs) (schema : Schema),
      maybeResolve items role = none →
      compileField rx env (fuel + 1) (.array c items minI maxI uniq addI)
        role scope refs = .ok (defs, schema) →
      lookupA schema "title" = none ∧ lookupA schema "description" = none ∧
      lookupA schema "enum" = none ∧ lookupA schema "default" = none) := by
  refine ⟨?_, ?_, ?_, ?_, ?_, ?_, ?_, ?_⟩
  · intro rx env fuel c role scope refs
    exact ⟨_, rfl, commonResolved_updateCommon _ _ _ _ rfl rfl rfl rfl⟩
  · intro rx env fuel c pat fmt minL maxL role scope refs
    refine ⟨_, rfl, ?_⟩
    have h := commonResolved_updateCommon [("type", JValue.str "string")]
      (scope.alter c.id).1 role c rfl rfl rfl rfl
    unfold commonResolved at h ⊢
    simpa [lookupA_setTruthyStr_ne, lookupA_setOptNum_ne, lookupA_setOptStr_ne]
      using h
  · intro rx env fuel numType c mo mi ma emin emax role scope refs
    refine ⟨_, rfl, ?_⟩
    have h := commonResolved_updateCommon [("type", JValue.str numType)]
      (scope.alter c.id).1 role c rfl rfl rfl rfl
    unfold commonResolved at h ⊢
    simpa [lookupA_setOptNum_ne, lookupA_setIfTrue_ne] using h
  · intro rx env fuel c props patProps addProps minP maxP role scope refs
      defs schema hcomp
    rw [compileField_succ] at hcomp
    simp only [compileStep] at hcomp
    cases hs1 : dictPropsStep
        (fun g r => compileField rx env fuel g r (scope.alter c.id).2 refs)
        props role (updateCommon [("type", .str "object")]
          (scope.alter c.id).1 role c) with
    | error e => simp [hs1, Except.bind, bind] at hcomp
    | ok acc1 =>
      simp only [hs1, bind, Except.bind] at hcomp
      cases hs2 : dictPatPropsStep rx
          (fun g r => compileField rx env fuel g r (scope.alter c.id).2 refs)
          patProps role acc1 with
      | error e => simp [hs2, Except.bind, bind] at hcomp
      | ok acc2 =>
        simp only [hs2, bind, Except.bind] at hcomp
        cases hs3 : dictAddPropsStep
            (fun g r => compileField rx env fuel g r (scope.alter c.id).2 refs)
            addProps role acc2 with
        | error e => simp [hs3, Except.bind, bind] at hcomp
        | ok acc3 =>
          simp only [hs3, bind, Except.bind] at hcomp
          simp [Prod.mk.injEq] at hcomp
          apply commonResolved_of_lookup_eq
            (updateCommon [("type", .str "object")] (scope.alter c.id).1 role c)
            schema c role
            (commonResolved_updateCommon _ _ _ _ rfl rfl rfl rfl) <;>
          · rw [← hcomp.2,
              lookupA_setOptNum_ne _ _ _ _ (by decide),
              lookupA_setOptNum_ne _ _ _ _ (by decide),
              dictAddPropsStep_lookup _ _ _ _ _ hs3 _ (by decide),
              dictPatPropsStep_lookup _ _ _ _ _ _ hs2 _ (by decide),
              dictPropsStep_lookup _ _ _ _ _ hs1 _ (by decide) (by decide)]
  · intro rx env fuel c mvf role scope refs defs schema hcomp
    rw [compileField_succ] at hcomp
    simp only [compileStep] at hcomp
    rcases hres : maybeResolve2 mvf role with ⟨o, r⟩
    simp only [hres] at hcomp
    rcases o with _ | g
    · simp [Except.bind, bind] at hcomp
      rw [← hcomp.2]
      exact commonResolved_updateCommon _ _ _ _ rfl rfl rfl rfl
    · cases hgo : compileField rx env fuel g r (scope.alter c.id).2 refs with
      | error e => simp [hgo, Except.bind, bind] at hcomp
      | ok pr =>
        rcases pr with ⟨gd, gs⟩
        simp only [hgo] at hcomp
        simp [Except.bind, bind] at hcomp
        rw [← hcomp.2]
        exact commonResolved_updateCommon _ _ _ _ (by simp [lookupA])
          (by simp [lookupA]) (by simp [lookupA]) (by simp [lookupA])
  · intro rx env fuel keyword c flds role scope refs defs schema hkw hcomp
    rw [compileField_succ] at hcomp
    simp only [compileStep] at hcomp
    rcases hres : maybeResolve2 flds role with ⟨o, r⟩
    simp only [hres] at hcomp
    rcases o with _ | l
    · simp [Except.bind, bind] at hcomp
      rw [← hcomp.2]
      rcases hkw with rfl | rfl | rfl <;>
        exact commonResolved_updateCommon _ _ _ _ (by simp [lookupA])
          (by simp [lookupA]) (by simp [lookupA]) (by simp [lookupA])
    · cases hof : ofItems
          (fun g r => compileField rx env fuel g r (scope.alter c.id).2 refs)
          l r with
      | error e => simp [hof, Except.bind, bind] at hcomp
      | ok pr =>
        rcases pr with ⟨d1, oneOf⟩
        simp only [hof] at hcomp
        simp [Except.bind, bind] at hcomp
        rw [← hcomp.2]
        rcases hkw with rfl | rfl | rfl <;>
          exact commonResolved_updateCommon _ _ _ _ (by simp [lookupA])
            (by simp [lookupA]) (by simp [lookupA]) (by simp [lookupA])
  · intro rx env fuel c items minI maxI uniq addI role scope refs defs schema
      hsome hcomp
    rw [compileField_succ] at hcomp
    simp only [compileStep] at hcomp
    cases hs1 : arrayItemsStep
        (fun g r => compileField rx env fuel g r (scope.alter c.id).2 refs)
        items role (scope.alter c.id).1 c [("type", .str "array")] with
    | error e => simp [hs1, Except.bind, bind] at hcomp
    | ok acc1 =>
      simp only [hs1, bind, Except.bind] at hcomp
      cases hs2 : arrayAddItemsStep
          (fun g r => compileField rx env fuel g r (scope.alter c.id).2 refs)
          addI role acc1 with
      | error e => simp [hs2, Except.bind, bind] at hcomp
      | ok acc2 =>
        simp only [hs2, bind, Except.bind] at hcomp
        simp [Prod.mk.injEq] at hcomp
        apply commonResolved_of_lookup_eq
          (updateCommon [("type", .str "array")] (scope.alter c.id).1 role c)
          schema c role
          (commonResolved_updateCommon _ _ _ _ rfl rfl rfl rfl) <;>
        · rw [← hcomp.2,
            lookupA_setIfTrue_ne _ _ _ _ (by decide),
            lookupA_setOptNum_ne _ _ _ _ (by decide),
            lookupA_setOptNum_ne _ _ _ _ (by decide),
            arrayAddItemsStep_lookup _ _ _ _ _ hs2 _ (by decide),
            arrayItemsStep_lookup_present _ _ _ _ _ _ _ hs1 hsome _ (by decide)]
  · intro rx env fuel c items minI maxI uniq addI role scope refs defs schema
      hnone hcomp
    rw [compileField_succ] at hcomp
    simp only [compileStep] at hcomp
    cases hs1 : arrayItemsStep
        (fun g r => compileField rx env fuel g r (scope.alter c.id).2 refs)
        items role (scope.alter c.id).1 c [("type", .str "array")] with
    | error e => simp [hs1, Except.bind, bind] at hcomp
    | ok acc1 =>
      simp only [hs1, bind, Except.bind] at hcomp
      cases hs2 : arrayAddItemsStep
          (fun g r => compileField rx env fuel g r (scope.alter c.id).2 refs)
          addI role acc1 with
      | error e => simp [hs2, Except.bind, bind] at hcomp
      | ok acc2 =>
        simp only [hs2, bind, Except.bind] at hcomp
        simp [Prod.mk.injEq] at hcomp
        have hb := arrayItemsStep_absent _ _ _ _ _ _ _ hs1 hnone
        refine ⟨?_, ?_, ?_, ?_⟩ <;>
        · rw [← hcomp.2,
            lookupA_setIfTrue_ne _ _ _ _ (by decide),
            lookupA_setOptNum_ne _ _ _ _ (by decide),
            lookupA_setOptNum_ne _ _ _ _ (by decide),
            arrayAddItemsStep_lookup _ _ _ _ _ hs2 _ (by decide), hb]
          rfl

/-- Witness for the amended C7: a BooleanField with a role-variant title
resolves it under the queried role, while the compiled OneOf schema of the
counterexample satisfies the common-attribute contract only at the default
role. -/
theorem claim_C7_amended_witness :
    (∃ s, compileField (fun _ => true) [] 1
        (.boolean { title := .var ⟨[(.lit "role_1", "T")], []⟩ })
        "role_1" {} [] = .ok ([], s) ∧
      commonResolved s { title := .var ⟨[(.lit "role_1", "T")], []⟩ } "role_1") ∧
    commonResolved [("oneOf", .arr []), ("title", .str "D")]
      { title := .var ⟨[(.lit "default", "D")], []⟩ } DEFAULT_ROLE :=
  ⟨claim_C7_amended.1 (fun _ => true) [] 1
      { title := .var ⟨[(.lit "role_1", "T")], []⟩ } "role_1" {} [],
   claim_C7_amended.2.2.2.2.2.1 (fun _ => true) [] 1 "oneOf"
      { title := .var ⟨[(.lit "default", "D")], []⟩ } (.plain (some []))
      "role_1" {} [] [] [("oneOf", .arr []), ("title", .str "D")]
      (Or.inl rfl) rfl⟩

/-- A predicate holds on every value any role could resolve out of a
possibly-Var attribute: the plain value if there is one, every branch
value of a `Var` otherwise. -/
def mvAll {α : Type} (p : α → Bool) : MaybeVar α → Bool
  | .plain none => true
  | .plain (some a) => p a
  | .var v => v.values.all (fun pv => p pv.2)

theorem mvAll_resolve {α : Type} (p : α → Bool) (mv : MaybeVar α)
    (r : String) (a : α) (hall : mvAll p mv = true)
    (hres : maybeResolve mv r = some a) : p a = true := by
  cases mv with
  | plain v =>
    cases v with
    | none => simp [maybeResolve] at hres
    | some b =>
      simp [maybeResolve] at hres
      subst hres
      simpa [mvAll] using hall
  | var v =>
    simp only [maybeResolve, VarSpec.resolve] at hres
    obtain ⟨q, hq⟩ := resolveList_mem v.values r a hres
    simp only [mvAll, List.all_eq_true] at hall
    exact hall (q, a) hq

theorem lookupA_mem {α : Type} :
    ∀ (l : List (String × α)) (k : String) (v : α),
    lookupA l k = some v → (k, v) ∈ l := by
  intro l k v
  induction l with
  | nil => simp [lookupA]
  | cons hd t ih =>
    rcases hd with ⟨k2, v2⟩
    by_cases hk : k2 = k
    · subst hk
      simp only [lookupA, if_true, Option.some.injEq]
      rintro rfl
      simp
    · simp only [lookupA, hk, if_false]
      intro h
      simp [ih h]

/-- Every regular expression that compiling the field (to any depth within
the fuel) could validate is accepted by `rx`: the `pattern_properties` keys
of every dict in the tree, in every `Var` branch, and throughout every
document of the registry reachable from a DocumentField. -/
def allRegexOkF (rx : String → Bool) (env : Env) : Nat → Field → Bool
  | 0, _ => true
  | fuel + 1, f =>
    match f with
    | .boolean _ => true
    | .string _ _ _ _ _ => true
    | .number _ _ _ _ _ _ _ => true
    | .array _ items _ _ _ addI =>
      mvAll (fun its =>
        match its with
        | .single g => allRegexOkF rx env fuel g
        | .list l => l.all (mvAll (allRegexOkF rx env fuel))) items &&
      mvAll (fun ai =>
        match ai with
        | .bool _ => true
        | .field g => allRegexOkF rx env fuel g) addI
    | .dict _ props patProps addProps _ _ =>
      mvAll (fun l => l.all (fun pm => mvAll (allRegexOkF rx env fuel) pm.2)) props &&
      mvAll (fun l => l.all (fun pm =>
        rx pm.1 && mvAll (allRegexOkF rx env fuel) pm.2)) patProps &&
      mvAll (fun ap =>
        match ap with
        | .bool _ => true
        | .field g => allRegexOkF rx env fuel g) addProps
    | .ofKind _ _ flds =>
      mvAll (fun l => l.all (mvAll (allRegexOkF rx env fuel))) flds
    | .notF _ mvf => mvAll (allRegexOkF rx env fuel) mvf
    | .docF _ _ _ _ =>
      env.all (fun nd => nd.2.properties.all
        (fun pm => mvAll (allRegexOkF rx env fuel) pm.2))

theorem maybeResolve_of_resolve2 {α : Type} (mv : MaybeVar α) (r : String)
    (a : α) (r2 : String) (h : maybeResolve2 mv r = (some a, r2)) :
    maybeResolve mv r = some a := by
  have := fst_maybeResolve2 mv r
  rw [h] at this
  exact this.symm

theorem processProperties_error
    (go : Field → String → Except CErr (Defs × Schema)) :
    ∀ (props : List (String × MaybeVar Field)) (role : String) (e : CErr),
    processProperties go props role = .error e →
    ∃ pm, pm ∈ props ∧ ∃ g grole,
      maybeResolve2 pm.2 role = (some g, grole) ∧ go g grole = .error e := by
  intro props
  induction props with
  | nil => intro role e h; simp [processProperties] at h
  | cons pm rest ih =>
    intro role e h
    rcases pm with ⟨prop, mv⟩
    rcases hres : maybeResolve2 mv role with ⟨o, grole⟩
    rcases o with _ | g
    · simp only [processProperties, hres] at h
      obtain ⟨pm2, hmem, hrest⟩ := ih role e h
      exact ⟨pm2, by simp [hmem], hrest⟩
    · simp only [processProperties, hres] at h
      cases hgo : go g grole with
      | error e2 =>
        simp [hgo, Except.bind, bind] at h
        exact ⟨(prop, mv), by simp, g, grole, hres, by rw [hgo, h]⟩
      | ok pr =>
        rcases pr with ⟨gd, gs⟩
        simp only [hgo, bind, Except.bind] at h
        cases hrest : processProperties go rest role with
        | error e2 =>
          simp [hrest, Except.bind, bind] at h
          obtain ⟨pm2, hmem, hr⟩ := ih role e2 hrest
          rw [← h]
          exact ⟨pm2, by simp [hmem], hr⟩
        | ok trip =>
          rcases trip with ⟨rd, rreq, rsch⟩
          simp [hrest, Except.bind, bind] at h

theorem ofItems_error (go : Field → String → Except CErr (Defs × Schema)) :
    ∀ (l : List (MaybeVar Field)) (role : String) (e : CErr),
    ofItems go l role = .error e →
    ∃ mv, mv ∈ l ∧ ∃ g grole,
      maybeResolve2 mv role = (some g, grole) ∧ go g grole = .error e := by
  intro l
  induction l with
  | nil => intro role e h; simp [ofItems] at h
  | cons mv rest ih =>
    intro role e h
    rcases hres : maybeResolve2 mv role with ⟨o, grole⟩
    rcases o with _ | g
    · simp only [ofItems, hres] at h
      obtain ⟨mv2, hmem, hrest⟩ := ih role e h
      exact ⟨mv2, by simp [hmem], hrest⟩
    · simp only [ofItems, hres] at h
      cases hgo : go g grole with
      | error e2 =>
        simp [hgo, Except.bind, bind] at h
        exact ⟨mv, by simp, g, grole, hres, by rw [hgo, h]⟩
      | ok pr =>
        rcases pr with ⟨gd, gs⟩
        simp only [hgo, bind, Except.bind] at h
        cases hrest : ofItems go rest role with
        | error e2 =>
          simp [hrest, Except.bind, bind] at h
          obtain ⟨mv2, hmem, hr⟩ := ih role e2 hrest
          rw [← h]
          exact ⟨mv2, by simp [hmem], hr⟩
        | ok pr2 =>
          rcases pr2 with ⟨rd, rs⟩
          simp [hrest, Except.bind, bind] at h

theorem arrayItemsC_error (go : Field → String → Except CErr (Defs × Schema)) :
    ∀ (l : List (MaybeVar Field)) (role : String) (e : CErr),
    arrayItemsC go l role = .error e →
    e = .attributeErrorNone ∨
    ∃ mv, mv ∈ l ∧ ∃ g grole,
      maybeResolve2 mv role = (some g, grole) ∧ go g grole = .error e := by
  intro l
  induction l with
  | nil => intro role e h; simp [arrayItemsC] at h
  | cons mv rest ih =>
    intro role e h
    rcases hres : maybeResolve2 mv role with ⟨o, grole⟩
    rcases o with _ | g
    · simp only [arrayItemsC, hres] at h
      simp at h
      exact Or.inl h.symm
    · simp only [arrayItemsC, hres] at h
      cases hgo : go g grole with
      | error e2 =>
        simp [hgo, Except.bind, bind] at h
        exact Or.inr ⟨mv, by simp, g, grole, hres, by rw [hgo, h]⟩
      | ok pr =>
        rcases pr with ⟨gd, gs⟩
        simp only [hgo, bind, Except.bind] at h
        cases hrest : arrayItemsC go rest role with
        | error e2 =>
          simp [hrest, Except.bind, bind] at h
          rw [← h]
          rcases ih role e2 hrest with ha | ⟨mv2, hmem, hr⟩
          · exact Or.inl ha
          · exact Or.inr ⟨mv2, by simp [hmem], hr⟩
        | ok pr2 =>
          rcases pr2 with ⟨rd, rs⟩
          simp [hrest, Except.bind, bind] at h

theorem compileDocument_error (go : Field → String → Except CErr (Defs × Schema))
    (doc : Document) (role : String) (e : CErr)
    (h : compileDocument go doc role = .error e) :
    ∃ pm, pm ∈ doc.properties ∧ ∃ g grole,
      maybeResolve2 pm.2 role = (some g, grole) ∧ go g grole = .error e := by
  unfold compileDocument at h
  cases hpp : processProperties go doc.properties role with
  | error e2 =>
    simp [hpp, Except.bind, bind] at h
    rw [← h]
    exact processProperties_error go doc.properties role e2 hpp
  | ok trip =>
    rcases trip with ⟨d, req, psch⟩
    simp [hpp, Except.bind, bind] at h

theorem getDocumentCls_not_invalidRegex (env : Env) (owner : Option String)
    (mv : MaybeVar String) (role : String) (s : String) :
    getDocumentCls env owner mv role ≠ .error (.invalidRegex s) := by
  unfold getDocumentCls
  rcases maybeResolve mv role with _ | s2
  · simp
  · by_cases hself : s2 = RECURSIVE_REFERENCE_CONSTANT
    · rcases owner with _ | o <;> simp [hself]
    · rcases hl : lookupA env s2 with _ | d
      · rcases owner with _ | o <;> simp [hself, hl]
      · simp [hself, hl]

theorem dictPropsStep_error (go : Field → String → Except CErr (Defs × Schema))
    (props : MaybeVar (List (String × MaybeVar Field))) (role : String)
    (schema0 : Schema) (e : CErr)
    (h : dictPropsStep go props role schema0 = .error e) :
    ∃ ps propsRole, maybeResolve2 props role = (some ps, propsRole) ∧
      ∃ pm, pm ∈ ps ∧ ∃ g grole,
        maybeResolve2 pm.2 propsRole = (some g, grole) ∧ go g grole = .error e := by
  unfold dictPropsStep at h
  rcases hres : maybeResolve2 props role with ⟨o, r⟩
  simp only [hres] at h
  rcases o with _ | ps
  · simp at h
  · cases hpp : processProperties go ps r with
    | error e2 =>
      simp [hpp, Except.bind, bind] at h
      rw [← h]
      exact ⟨ps, r, rfl, processProperties_error go ps r e2 hpp⟩
    | ok trip =>
      rcases trip with ⟨d, req, psch⟩
      simp [hpp, Except.bind, bind] at h

theorem dictPatPropsStep_error (rx : String → Bool)
    (go : Field → String → Except CErr (Defs × Schema))
    (patProps : MaybeVar (List (String × MaybeVar Field))) (role : String)
    (acc : Defs × Schema) (e : CErr)
    (h : dictPatPropsStep rx go patProps role acc = .error e) :
    ∃ pps ppRole, maybeResolve2 patProps role = (some pps, ppRole) ∧
      ((∃ kv, kv ∈ pps ∧ rx kv.1 = false ∧ e = .invalidRegex kv.1) ∨
       (∃ pm, pm ∈ pps ∧ ∃ g grole,
         maybeResolve2 pm.2 ppRole = (some g, grole) ∧ go g grole = .error e)) := by
  unfold dictPatPropsStep at h
  rcases hres : maybeResolve2 patProps role with ⟨o, r⟩
  simp only [hres] at h
  rcases o with _ | pps
  · simp at h
  · cases hfind : pps.find? (fun kv => !rx kv.1) with
    | some kv =>
      simp [hfind] at h
      refine ⟨pps, r, rfl, Or.inl ⟨kv, List.mem_of_find?_eq_some hfind, ?_, h.symm⟩⟩
      have := List.find?_some hfind
      simpa using this
    | none =>
      simp only [hfind] at h
      cases hpp : processProperties go pps r with
      | error e2 =>
        simp [hpp, Except.bind, bind] at h
        rw [← h]
        exact ⟨pps, r, rfl, Or.inr (processProperties_error go pps r e2 hpp)⟩
      | ok trip =>
        rcases trip with ⟨d, req, psch⟩
        simp [hpp, Except.bind, bind] at h

theorem dictAddPropsStep_error
    (go : Field → String → Except CErr (Defs × Schema))
    (addProps : MaybeVar AddProps) (role : String) (acc : Defs × Schema)
    (e : CErr) (h : dictAddPropsStep go addProps role acc = .error e) :
    ∃ g grole, maybeResolve2 addProps role = (some (.field g), grole) ∧
      go g grole = .error e := by
  unfold dictAddPropsStep at h
  rcases hres : maybeResolve2 addProps role with ⟨o, r⟩
  simp only [hres] at h
  rcases o with _ | ap
  · simp at h
  · rcases ap with b | g
    · simp at h
    · cases hgo : go g r with
      | error e2 =>
        simp [hgo, Except.bind, bind] at h
        exact ⟨g, r, rfl, by rw [hgo, h]⟩
      | ok pr =>
        rcases pr with ⟨gd, gs⟩
        simp [hgo, Except.bind, bind] at h

theorem arrayAddItemsStep_error
    (go : Field → String → Except CErr (Defs × Schema))
    (addI : MaybeVar AddItems) (role : String) (acc : Defs × Schema)
    (e : CErr) (h : arrayAddItemsStep go addI role acc = .error e) :
    ∃ g grole, maybeResolve2 addI role = (some (.field g), grole) ∧
      go g grole = .error e := by
  unfold arrayAddItemsStep at h
  rcases hres : maybeResolve2 addI role with ⟨o, r⟩
  simp only [hres] at h
  rcases o with _ | ai
  · simp at h
  · rcases ai with b | g
    · simp at h
    · cases hgo : go g r with
      | error e2 =>
        simp [hgo, Except.bind, bind] at h
        exact ⟨g, r, rfl, by rw [hgo, h]⟩
      | ok pr =>
        rcases pr with ⟨gd, gs⟩
        simp [hgo, Except.bind, bind] at h

theorem arrayItemsStep_error
    (go : Field → String → Except CErr (Defs × Schema))
    (items : MaybeVar Items) (role id : String) (c : CommonAttrs)
    (base : Schema) (e : CErr)
    (h : arrayItemsStep go items role id c base = .error e) :
    e = .typeError ∨ e = .attributeErrorNone ∨
    (∃ g grole, maybeResolve2 items role = (some (.single g), grole) ∧
      go g grole = .error e) ∨
    (∃ l, items = .plain (some (.list l)) ∧ ∃ mv, mv ∈ l ∧ ∃ g grole,
      maybeResolve2 mv role = (some g, grole) ∧ go g grole = .error e) := by
  unfold arrayItemsStep at h
  rcases hres : maybeResolve2 items role with ⟨o, r⟩
  simp only [hres] at h
  rcases o with _ | its
  · simp at h
  · rcases its with g | l
    · cases hgo : go g r with
      | error e2 =>
        simp [hgo, Except.bind, bind] at h
        exact Or.inr (Or.inr (Or.inl ⟨g, r, rfl, by rw [hgo, h]⟩))
      | ok pr =>
        rcases pr with ⟨gd, gs⟩
        simp [hgo, Except.bind, bind] at h
    · rcases items with pv | vv
      case var => simp at h; exact Or.inl h.symm
      case plain =>
        rcases pv with _ | it2
        · simp at h
          exact Or.inl h.symm
        · rcases it2 with g2 | l2
          · simp at h
            exact Or.inl h.symm
          · simp only [] at h
            cases hic : arrayItemsC go l2 role with
            | error e2 =>
              simp [hic, Except.bind, bind] at h
              rw [← h]
              rcases arrayItemsC_error go l2 role e2 hic with ha | ⟨mv, hmem, hr⟩
              · exact Or.inr (Or.inl ha)
              · exact Or.inr (Or.inr (Or.inr ⟨l2, rfl, mv, hmem, hr⟩))
            | ok pr =>
              rcases pr with ⟨gd, ls⟩
              simp [hic, Except.bind, bind] at h

/-- When every regular expression reachable from a field within the given
fuel is valid, compilation never raises the invalid-regex error. -/
theorem compileField_no_invalidRegex (rx : String → Bool) (env : Env) :
    ∀ (fuel : Nat) (f : Field) (role : String) (scope : Scope)
      (refs : List String) (s : String),
    allRegexOkF rx env fuel f = true →
    compileField rx env fuel f role scope refs ≠ .error (.invalidRegex s) := by
  intro fuel
  induction fuel with
  | zero =>
    intro f role scope refs s _ h
    simp [compileField] at h
  | succ fuel ih =>
    intro f role scope refs s hok hcomp
    rw [compileField_succ] at hcomp
    cases f with
    | boolean c => simp [compileStep] at hcomp
    | string c pat fmt minL maxL => simp [compileStep] at hcomp
    | number numType c mo mi ma emin emax => simp [compileStep] at hcomp
    | array c items minI maxI uniq addI =>
      simp only [compileStep] at hcomp
      simp only [allRegexOkF, Bool.and_eq_true] at hok
      cases hs1 : arrayItemsStep
          (fun g r => compileField rx env fuel g r (scope.alter c.id).2 refs)
          items role (scope.alter c.id).1 c [("type", .str "array")] with
      | error e =>
        simp [hs1, Except.bind, bind] at hcomp
        rw [hcomp] at hs1
        rcases arrayItemsStep_error _ _ _ _ _ _ _ hs1 with
          hte | hae | ⟨g, grole, hres, hgo⟩ | ⟨l, hit, mv, hmem, g, grole, hres, hgo⟩
        · simp at hte
        · simp at hae
        · have hg : allRegexOkF rx env fuel g = true := by
            have := mvAll_resolve _ items role (.single g) hok.1
              (maybeResolve_of_resolve2 _ _ _ _ hres)
            simpa using this
          exact ih g grole _ refs s hg hgo
        · have hl : l.all (mvAll (allRegexOkF rx env fuel)) = true := by
            rw [hit] at hok
            simpa [mvAll] using hok.1
          have hmv : mvAll (allRegexOkF rx env fuel) mv = true := by
            rw [List.all_eq_true] at hl
            exact hl mv hmem
          have hg : allRegexOkF rx env fuel g = true :=
            mvAll_resolve _ mv role g hmv (maybeResolve_of_resolve2 _ _ _ _ hres)
          exact ih g grole _ refs s hg hgo
      | ok acc1 =>
        simp only [hs1, bind, Except.bind] at hcomp
        cases hs2 : arrayAddItemsStep
            (fun g r => compileField rx env fuel g r (scope.alter c.id).2 refs)
            addI role acc1 with
        | error e =>
          simp [hs2, Except.bind, bind] at hcomp
          rw [hcomp] at hs2
          obtain ⟨g, grole, hres, hgo⟩ := arrayAddItemsStep_error _ _ _ _ _ hs2
          have hg : allRegexOkF rx env fuel g = true := by
            have := mvAll_resolve _ addI role (.field g) hok.2
              (maybeResolve_of_resolve2 _ _ _ _ hres)
            simpa using this
          exact ih g grole _ refs s hg hgo
        | ok acc2 => simp [hs2, Except.bind, bind] at hcomp
    | dict c props patProps addProps minP maxP =>
      simp only [compileStep] at hcomp
      simp only [allRegexOkF, Bool.and_eq_true] at hok
      cases hs1 : dictPropsStep
          (fun g r => compileField rx env fuel g r (scope.alter c.id).2 refs)
          props role (updateCommon [("type", .str "object")]
            (scope.alter c.id).1 role c) with
      | error e =>
        simp [hs1, Except.bind, bind] at hcomp
        rw [hcomp] at hs1
        obtain ⟨ps, propsRole, hres, pm, hmem, g, grole, hres2, hgo⟩ :=
          dictPropsStep_error _ _ _ _ _ hs1
        have hps : ps.all (fun pm => mvAll (allRegexOkF rx env fuel) pm.2) = true := by
          have := mvAll_resolve _ props role ps hok.1.1
            (maybeResolve_of_resolve2 _ _ _ _ hres)
          simpa using this
        have hg : allRegexOkF rx env fuel g = true := by
          rw [List.all_eq_true] at hps
          exact mvAll_resolve _ pm.2 propsRole g (hps pm hmem)
            (maybeResolve_of_resolve2 _ _ _ _ hres2)
        exact ih g grole _ refs s hg hgo
      | ok acc1 =>
        simp only [hs1, bind, Except.bind] at hcomp
        cases hs2 : dictPatPropsStep rx
            (fun g r => compileField rx env fuel g r (scope.alter c.id).2 refs)
            patProps role acc1 with
        | error e =>
          simp [hs2, Except.bind, bind] at hcomp
          rw [hcomp] at hs2
          obtain ⟨pps, ppRole, hres, hrest⟩ := dictPatPropsStep_error _ _ _ _ _ _ hs2
          have hpps : pps.all (fun pm =>
              rx pm.1 && mvAll (allRegexOkF rx env fuel) pm.2) = true := by
            have := mvAll_resolve _ patProps role pps hok.1.2
              (maybeResolve_of_resolve2 _ _ _ _ hres)
            simpa using this
          rw [List.all_eq_true] at hpps
          rcases hrest with ⟨kv, hmem, hrx, _⟩ | ⟨pm, hmem, g, grole, hres2, hgo⟩
          · have := hpps kv hmem
            rw [hrx] at this
            simp at this
          · have hg : allRegexOkF rx env fuel g = true := by
              have := hpps pm hmem
              rw [Bool.and_eq_true] at this
              exact mvAll_resolve _ pm.2 ppRole g this.2
                (maybeResolve_of_resolve2 _ _ _ _ hres2)
            exact ih g grole _ refs s hg hgo
        | ok acc2 =>
          simp only [hs2, bind, Except.bind] at hcomp
          cases hs3 : dictAddPropsStep
              (fun g r => compileField rx env fuel g r (scope.alter c.id).2 refs)
              addProps role acc2 with
          | error e =>
            simp [hs3, Except.bind, bind] at hcomp
            rw [hcomp] at hs3
            obtain ⟨g, grole, hres, hgo⟩ := dictAddPropsStep_error _ _ _ _ _ hs3
            have hg : allRegexOkF rx env fuel g = true := by
              have := mvAll_resolve _ addProps role (.field g) hok.2
                (maybeResolve_of_resolve2 _ _ _ _ hres)
              simpa using this
            exact ih g grole _ refs s hg hgo
          | ok acc3 => simp [hs3, Except.bind, bind] at hcomp
    | ofKind keyword c flds =>
      simp only [compileStep, allRegexOkF] at hcomp hok
      rcases hres : maybeResolve2 flds role with ⟨o, r⟩
      simp only [hres] at hcomp
      rcases o with _ | l
      · simp [Except.bind, bind] at hcomp
      · cases hof : ofItems
            (fun g r => compileField rx env fuel g r (scope.alter c.id).2 refs)
            l r with
        | error e =>
          simp [hof, Except.bind, bind] at hcomp
          rw [hcomp] at hof
          obtain ⟨mv, hmem, g, grole, hres2, hgo⟩ := ofItems_error _ _ _ _ hof
          have hl : l.all (mvAll (allRegexOkF rx env fuel)) = true := by
            have := mvAll_resolve _ flds role l hok
              (maybeResolve_of_resolve2 _ _ _ _ hres)
            simpa using this
          have hg : allRegexOkF rx env fuel g = true := by
            rw [List.all_eq_true] at hl
            exact mvAll_resolve _ mv r g (hl mv hmem)
              (maybeResolve_of_resolve2 _ _ _ _ hres2)
          exact ih g grole _ refs s hg hgo
        | ok pr =>
          rcases pr with ⟨d1, oneOf⟩
          simp [hof, Except.bind, bind] at hcomp
    | notF c mvf =>
      simp only [compileStep, allRegexOkF] at hcomp hok
      rcases hres : maybeResolve2 mvf role with ⟨o, r⟩
      simp only [hres] at hcomp
      rcases o with _ | g
      · simp [Except.bind, bind] at hcomp
      · cases hgo : compileField rx env fuel g r (scope.alter c.id).2 refs with
        | error e =>
          simp [hgo, Except.bind, bind] at hcomp
          rw [hcomp] at hgo
          have hg : allRegexOkF rx env fuel g = true :=
            mvAll_resolve _ mvf role g hok (maybeResolve_of_resolve2 _ _ _ _ hres)
          exact ih g r _ refs s hg hgo
        | ok pr =>
          rcases pr with ⟨gd, gs⟩
          simp [hgo, Except.bind, bind] at hcomp
    | docF req mv asRef owner =>
      simp only [compileStep, allRegexOkF] at hcomp hok
      cases hdc : getDocumentCls env owner mv role with
      | error e =>
        simp only [hdc] at hcomp
        simp at hcomp
        rw [hcomp] at hdc
        exact getDocumentCls_not_invalidRegex env owner mv role s hdc
      | ok o =>
        simp only [hdc] at hcomp
        rcases o with _ | dname
        · simp at hcomp
        · rcases hl : lookupA env dname with _ | doc
          · simp [hl] at hcomp
          · simp only [hl] at hcomp
            by_cases hrefs : refs.contains dname = true
            · have hmem : dname ∈ refs := by simpa using hrefs
              simp [hmem, hrefs] at hcomp
            · rw [if_neg hrefs] at hcomp
              cases hdoc : compileDocument
                  (fun g r => compileField rx env fuel g r scope refs)
                  doc role with
              | error e =>
                simp [hdoc] at hcomp
                rw [hcomp] at hdoc
                obtain ⟨pm, hmem, g, grole, hres2, hgo⟩ :=
                  compileDocument_error _ _ _ _ hdoc
                have hdocall : doc.properties.all
                    (fun pm => mvAll (allRegexOkF rx env fuel) pm.2) = true := by
                  rw [List.all_eq_true] at hok
                  exact hok (dname, doc) (lookupA_mem env dname doc hl)
                have hg : allRegexOkF rx env fuel g = true := by
                  rw [List.all_eq_true] at hdocall
                  exact mvAll_resolve _ pm.2 role g (hdocall pm hmem)
                    (maybeResolve_of_resolve2 _ _ _ _ hres2)
                exact ih g grole _ refs s hg hgo
              | ok pr =>
                rcases pr with ⟨dd, ds⟩
                simp only [hdoc] at hcomp
                by_cases hasRef : asRef <;> simp [hasRef] at hcomp

/-- A plain string field with no attributes, used as a leaf in concrete
instances. -/
def stringF : Field :=
  .string {} (.plain none) (.plain none) (.plain none) (.plain none)

/-- Counterexample for C8: a DictField whose `pattern_properties` contains
the invalid regular expression `"("` is constructed without any error --
`__init__` performs no validation -- and the `ValueError` is raised only by
`get_definitions_and_schema`. -/
theorem claim_C8_counterexample :
    dictInit (.plain none) (.plain (some [("(", .plain (some stringF))]))
      (.plain none) (.plain none) (.plain none) {}
      = .ok (.dict {} (.plain none)
          (.plain (some [("(", .plain (some stringF))])) (.plain none)
          (.plain none) (.plain none)) ∧
    compileField (fun t => t ≠ "(") [] 2
      (.dict {} (.plain none) (.plain (some [("(", .plain (some stringF))]))
        (.plain none) (.plain none) (.plain none)) "default" {} []
      = .error (.invalidRegex "(") :=
  ⟨rfl, rfl⟩

/-- C8 as amended: constructing a DictField never validates the
`pattern_properties` keys; `get_definitions_and_schema` validates the
resolved keys in declared order and raises the invalid-regex error at the
first invalid one; and when every regular expression reachable from the
field (including in nested fields and referenced documents) is valid,
`get_definitions_and_schema` raises no regex error. -/
theorem claim_C8 :
    (∀ (props patProps : MaybeVar (List (String × MaybeVar Field)))
       (addProps : MaybeVar AddProps) (minP maxP : MaybeVar Int)
       (c : CommonAttrs),
      dictInit props patProps addProps minP maxP c
        = .ok (.dict c props patProps addProps minP maxP)) ∧
    (∀ (rx : String → Bool) (env : Env) (fuel : Nat) (c : CommonAttrs)
       (patProps : MaybeVar (List (String × MaybeVar Field)))
       (ap : MaybeVar AddProps) (mn mx : MaybeVar Int) (role : String)
       (scope : Scope) (refs : List String)
       (pps : List (String × MaybeVar Field)) (ppRole : String)
       (kv : String × MaybeVar Field),
      maybeResolve2 patProps role = (some pps, ppRole) →
      pps.find? (fun kv => !rx kv.1) = some kv →
      compileField rx env (fuel + 1)
        (.dict c (.plain none) patProps ap mn mx) role scope refs
        = .error (.invalidRegex kv.1)) ∧
    (∀ (rx : String → Bool) (env : Env) (fuel : Nat) (c : CommonAttrs)
       (props patProps : MaybeVar (List (String × MaybeVar Field)))
       (ap : MaybeVar AddProps) (mn mx : MaybeVar Int) (role : String)
       (scope : Scope) (refs : List String) (s : String),
      allRegexOkF rx env (fuel + 1) (.dict c props patProps ap mn mx) = true →
      compileField rx env (fuel + 1) (.dict c props patProps ap mn mx)
        role scope refs ≠ .error (.invalidRegex s)) := by
  refine ⟨fun _ _ _ _ _ _ => rfl, ?_, ?_⟩
  · intro rx env fuel c patProps ap mn mx role scope refs pps ppRole kv hres hfind
    rw [compileField_succ]
    simp only [compileStep, dictPropsStep, maybeResolve2, bind, Except.bind]
    simp only [dictPatPropsStep, hres, hfind]
  · intro rx env fuel c props patProps ap mn mx role scope refs s hok
    exact compileField_no_invalidRegex rx env (fuel + 1) _ role scope refs s hok

/-- Witness for C8, at the concrete DictField of the counterexample (its
construction and the compile-time error) and at a DictField whose only
pattern key `".*"` is valid (no regex error arises). -/
theorem claim_C8_witness :
    dictInit (.plain none) (.plain (some [("(", .plain (some stringF))]))
      (.plain none) (.plain none) (.plain none) {}
      = .ok (.dict {} (.plain none)
          (.plain (some [("(", .plain (some stringF))])) (.plain none)
          (.plain none) (.plain none)) ∧
    compileField (fun t => t ≠ "(") [] 1
      (.dict {} (.plain none) (.plain (some [("(", .plain (some stringF))]))
        (.plain none) (.plain none) (.plain none)) "default" {} []
      = .error (.invalidRegex "(") ∧
    compileField (fun t => t ≠ "(") [] 1
      (.dict {} (.plain none) (.plain (some [(".*", .plain (some stringF))]))
        (.plain none) (.plain none) (.plain none)) "default" {} []
      ≠ .error (.invalidRegex ".*") :=
  ⟨claim_C8.1 (.plain none) (.plain (some [("(", .plain (some stringF))]))
      (.plain none) (.plain none) (.plain none) {},
   claim_C8.2.1 (fun t => t ≠ "(") [] 0 {}
      (.plain (some [("(", .plain (some stringF))])) (.plain none)
      (.plain none) (.plain none) "default" {} []
      [("(", .plain (some stringF))] "default" ("(", .plain (some stringF))
      rfl rfl,
   claim_C8.2.2 (fun t => t ≠ "(") [] 0 {} (.plain none)
      (.plain (some [(".*", .plain (some stringF))])) (.plain none)
      (.plain none) (.plain none) "default" {} [] ".*" (by decide)⟩

/-- Counterexample for C9: a DocumentField built on the self-reference
sentinel with no owning Document is constructed without any error --
`__init__` sets `owner_cls` to `None` and validates nothing -- and the
`ValueError("owner_cls is not set")` is raised only when
`get_document_cls` resolves the sentinel. -/
theorem claim_C9_counterexample :
    documentFieldInit (.plain (some "self")) false (.plain (some false))
      = .ok (.docF (.plain (some false)) (.plain (some "self")) false none) ∧
    getDocumentCls [] none (.plain (some "self")) "default"
      = .error .ownerNotSet :=
  ⟨rfl, rfl⟩

/-- C9 as amended: constructing a DocumentField on the self-reference
sentinel always succeeds, with `owner_cls` unset; `get_document_cls`
raises `ValueError("owner_cls is not set")` when it resolves the sentinel
without an owner; and with an owner set it substitutes the owning
Document for the sentinel. -/
theorem claim_C9 :
    (∀ (docCls : MaybeVar String) (asRef : Bool) (req : MaybeVar Bool),
      documentFieldInit docCls asRef req = .ok (.docF req docCls asRef none)) ∧
    (∀ (env : Env) (mv : MaybeVar String) (role : String),
      maybeResolve mv role = some RECURSIVE_REFERENCE_CONSTANT →
      getDocumentCls env none mv role = .error .ownerNotSet) ∧
    (∀ (env : Env) (o : String) (mv : MaybeVar String) (role : String),
      maybeResolve mv role = some RECURSIVE_REFERENCE_CONSTANT →
      getDocumentCls env (some o) mv role = .ok (some o)) := by
  refine ⟨fun _ _ _ => rfl, ?_, ?_⟩
  · intro env mv role hres
    unfold getDocumentCls
    rw [hres]
    simp
  · intro env o mv role hres
    unfold getDocumentCls
    rw [hres]
    simp

/-- Witness for C9: under an empty registry, resolving the sentinel
without an owner raises the owner error, and with owner `"A"` it yields
`"A"`. -/
theorem claim_C9_witness :
    getDocumentCls [] none (.plain (some "self")) "r" = .error .ownerNotSet ∧
    getDocumentCls [] (some "A") (.plain (some "self")) "r" = .ok (some "A") :=
  ⟨claim_C9.2.1 [] (.plain (some "self")) "r" rfl,
   claim_C9.2.2 [] "A" (.plain (some "self")) "r" rfl⟩

/-- C4, at the failing input: an element of an ArrayField's positional
items list that resolves to absent is not skipped -- the source calls
`get_definitions_and_schema` on `None` and compilation raises an
`AttributeError` -- while under a role that resolves the element the same
field compiles; the other composite variants do skip absent children. -/
theorem claim_C4_failing :
    compileField (fun _ => true) [] 2
      (.array {} (.plain (some (.list [.var ⟨[(.lit "role_1", stringF)], []⟩])))
        (.plain none) (.plain none) (.plain none) (.plain none))
      "default" {} [] = .error .attributeErrorNone ∧
    compileField (fun _ => true) [] 2
      (.array {} (.plain (some (.list [.var ⟨[(.lit "role_1", stringF)], []⟩])))
        (.plain none) (.plain none) (.plain none) (.plain none))
      "role_1" {} []
      = .ok ([], [("type", .str "array"),
          ("items", .arr [.obj [("type", .str "string")]])]) :=
  ⟨rfl, rfl⟩

/-- C5: a DocumentField whose target document is in the `ref_documents`
set compiles to a `$ref` created via the scope for the target's
definition id, with an empty definitions map; when the target is not in
the set and `as_ref` is set, the compiled document schema is stored under
its definition id in the returned definitions map and the emitted schema
is the `$ref` to it. -/
theorem claim_C5 (rx : String → Bool) (env : Env) (fuel : Nat)
    (req : MaybeVar Bool) (mv : MaybeVar String) (asRef : Bool)
    (owner : Option String) (role : String) (scope : Scope) (dname : String)
    (doc : Document)
    (hdc : getDocumentCls env owner mv role = .ok (some dname))
    (hl : lookupA env dname = some doc) :
    (∀ refs : List String, dname ∈ refs →
      compileField rx env (fuel + 1) (.docF req mv asRef owner) role scope refs
        = .ok ([], createRef scope doc.definitionId)) ∧
    (∀ (refs : List String) (dd : Defs) (ds : Schema), dname ∉ refs →
      asRef = true →
      compileDocument (fun g r => compileField rx env fuel g r scope refs)
        doc role = .ok (dd, ds) →
      compileField rx env (fuel + 1) (.docF req mv asRef owner) role scope refs
        = .ok (setKey dd doc.definitionId (.obj ds),
               createRef scope doc.definitionId)) := by
  constructor
  · intro refs hmem
    rw [compileField_succ]
    simp only [compileStep, hdc, hl]
    simp [hmem]
  · intro refs dd ds hnot hasRef hdoc
    subst hasRef
    rw [compileField_succ]
    simp only [compileStep, hdc, hl]
    have hc : refs.contains dname = false := by simpa using hnot
    simp [hc, hdoc, hnot]

/-- A document with a single string property, and a registry holding it
under the name `"B"`. -/
def docB : Document :=
  { properties := [("n", .plain (some stringF))], definitionId := "b" }

def envB : Env := [("B", docB)]

/-- Witness for C5: with the target in `ref_documents` the field compiles
to the bare reference and no definitions; with `as_ref` and the target
outside the set, the document schema lands in the definitions map under
`"b"` and the field compiles to the reference. -/
theorem claim_C5_witness :
    compileField (fun _ => true) envB 3
      (.docF (.plain (some false)) (.plain (some "B")) false none)
      "default" {} ["B"] = .ok ([], createRef {} "b") ∧
    compileField (fun _ => true) envB 3
      (.docF (.plain (some false)) (.plain (some "B")) true none)
      "default" {} []
      = .ok (setKey [] "b" (.obj [("type", .str "object"),
          ("additionalProperties", .bool false),
          ("properties", .obj [("n", .obj [("type", .str "string")])])]),
          createRef {} "b") :=
  ⟨(claim_C5 (fun _ => true) envB 2 (.plain (some false)) (.plain (some "B"))
      false none "default" {} "B" docB rfl rfl).1 ["B"] (by simp),
   (claim_C5 (fun _ => true) envB 2 (.plain (some false)) (.plain (some "B"))
      true none "default" {} "B" docB rfl rfl).2 [] []
      [("type", .str "object"), ("additionalProperties", .bool false),
       ("properties", .obj [("n", .obj [("type", .str "string")])])]
      (by simp) rfl rfl⟩

theorem sizeOf_resolveList_lt {α : Type} [SizeOf α] :
    ∀ (l : List (RolePred × α)) (r : String) (a : α),
    resolveList l r = some a → sizeOf a < sizeOf l := by
  intro l r a
  induction l with
  | nil => simp [resolveList]
  | cons hd t ih =>
    rcases hd with ⟨p, x⟩
    by_cases hm : rolePredMatches p r = true
    · simp only [resolveList, hm, if_true, Option.some.injEq]
      rintro rfl
      simp only [List.cons.sizeOf_spec, Prod.mk.sizeOf_spec]
      omega
    · simp only [resolveList, hm, Bool.false_eq_true, if_false]
      intro h
      have := ih h
      simp only [List.cons.sizeOf_spec]
      omega

theorem sizeOf_maybeResolve_lt {α : Type} [SizeOf α] (mv : MaybeVar α)
    (r : String) (a : α) (h : maybeResolve mv r = some a) :
    sizeOf a < sizeOf mv := by
  cases mv with
  | plain v =>
    cases v with
    | none => simp [maybeResolve] at h
    | some b =>
      simp only [maybeResolve, Option.some.injEq] at h
      subst h
      simp only [MaybeVar.plain.sizeOf_spec, Option.some.sizeOf_spec]
      omega
  | var v =>
    simp only [maybeResolve, VarSpec.resolve] at h
    have := sizeOf_resolveList_lt v.values r a h
    rcases v with ⟨values, propagated⟩
    simp only [MaybeVar.var.sizeOf_spec, VarSpec.mk.sizeOf_spec] at *
    omega

theorem envWeight_mono (env : Env) (x : String) (visited : List String) :
    ((env.filter (fun nd => !(x :: visited).contains nd.1)).map
      (fun nd => 1 + sizeOf nd.2.properties)).sum
    ≤ ((env.filter (fun nd => !visited.contains nd.1)).map
      (fun nd => 1 + sizeOf nd.2.properties)).sum := by
  induction env with
  | nil => simp
  | cons nd t ih =>
    by_cases hv : visited.contains nd.1 = true
    · have hv2 : (x :: visited).contains nd.1 = true := by
        simp only [List.contains_cons, hv, Bool.or_true]
      simp only [List.filter_cons, hv, hv2, Bool.not_true, Bool.false_eq_true,
        if_false]
      exact ih
    · by_cases hx : nd.1 = x
      · have hv2 : (x :: visited).contains nd.1 = true := by
          simp [List.contains_cons, hx]
        simp only [List.filter_cons, hv, hv2, Bool.not_true, Bool.not_false,
          Bool.false_eq_true, if_false, if_true, List.map_cons, List.sum_cons]
        omega
      · have hv2 : (x :: visited).contains nd.1 = false := by
          simp only [List.contains_cons, Bool.or_eq_false_iff]
          constructor
          · simpa using hx
          · simpa using hv
        simp only [List.filter_cons, hv, hv2, Bool.not_false, if_true,
          List.map_cons, List.sum_cons]
        omega

theorem envWeight_lookup (env : Env) (n : String) (d : Document)
    (visited : List String) (hl : lookupA env n = some d)
    (hnv : visited.contains n = false) :
    ((env.filter (fun nd => !(n :: visited).contains nd.1)).map
      (fun nd => 1 + sizeOf nd.2.properties)).sum + (1 + sizeOf d.properties)
    ≤ ((env.filter (fun nd => !visited.contains nd.1)).map
      (fun nd => 1 + sizeOf nd.2.properties)).sum := by
  induction env with
  | nil => simp [lookupA] at hl
  | cons nd t ih =>
    rcases nd with ⟨m, dm⟩
    by_cases hm : m = n
    · subst hm
      simp only [lookupA, if_true, Option.some.injEq] at hl
      subst hl
      have hv2 : (m :: visited).contains m = true := by simp
      simp only [List.filter_cons, hnv, hv2, Bool.not_true, Bool.not_false,
        Bool.false_eq_true, if_false, if_true, List.map_cons, List.sum_cons]
      have := envWeight_mono t m visited
      omega
    · simp only [lookupA, hm, if_false] at hl
      have hcons : (n :: visited).contains m = visited.contains m := by
        have hbe : (m == n) = false := by
          simpa using hm
        simp [List.contains_cons, hbe]
        exact fun h => absurd h hm
      by_cases hv : visited.contains m = true
      · simp only [List.filter_cons, hcons, hv, Bool.not_true,
          Bool.false_eq_true, if_false]
        exact ih hl
      · have hv3 : visited.contains m = false := by simpa using hv
        simp only [List.filter_cons, hcons, hv3, Bool.not_false, if_true,
          List.map_cons, List.sum_cons]
        have := ih hl
        omega

theorem getDocumentCls_not_fuel (env : Env) (owner : Option String)
    (mv : MaybeVar String) (role : String) :
    getDocumentCls env owner mv role ≠ .error .fuel := by
  unfold getDocumentCls
  rcases maybeResolve mv role with _ | s2
  · simp
  · by_cases hself : s2 = RECURSIVE_REFERENCE_CONSTANT
    · rcases owner with _ | o <;> simp [hself]
    · rcases hl : lookupA env s2 with _ | d
      · rcases owner with _ | o <;> simp [hself, hl]
      · simp [hself, hl]

theorem iterFields_ne_fuel (env : Env) (f : Field) (role : String) :
    iterFields env f role ≠ .error .fuel := by
  cases f with
  | boolean c => simp [iterFields]
  | string c pat fmt minL maxL => simp [iterFields]
  | number numType c mo mi ma emin emax => simp [iterFields]
  | notF c mvf => simp [iterFields]
  | array c items minI maxI uniq addI => simp [iterFields]
  | dict c props patProps addProps minP maxP => simp [iterFields]
  | ofKind keyword c flds =>
    simp only [iterFields]
    rcases hres : maybeResolve2 flds role with ⟨o, r⟩
    rcases o with _ | l <;> simp
  | docF req mv asRef owner =>
    simp only [iterFields]
    cases hdc : getDocumentCls env owner mv role with
    | error e =>
      intro h
      simp at h
      rw [h] at hdc
      exact getDocumentCls_not_fuel env owner mv role hdc
    | ok o =>
      rcases o with _ | dname
      · simp
      · rcases hl : lookupA env dname with _ | doc <;> simp [hl]

/-- Whether a field is a DocumentField (walk treats those specially). -/
def Field.isDocF : Field → Bool
  | .docF _ _ _ _ => true
  | _ => false

theorem iterFields_size (env : Env) (f : Field) (role : String)
    (l : List (Option Field)) (hnd : f.isDocF = false)
    (h : iterFields env f role = .ok l) (g : Field) (hg : some g ∈ l) :
    sizeOf g < sizeOf f := by
  cases f with
  | boolean c => simp [iterFields] at h; subst h; simp at hg
  | string c pat fmt minL maxL => simp [iterFields] at h; subst h; simp at hg
  | number numType c mo mi ma emin emax =>
    simp [iterFields] at h; subst h; simp at hg
  | notF c mvf => simp [iterFields] at h; subst h; simp at hg
  | docF req mv asRef owner => simp [Field.isDocF] at hnd
  | ofKind keyword c flds =>
    simp only [iterFields] at h
    rcases hres : maybeResolve2 flds role with ⟨o, r⟩
    rw [hres] at h
    rcases o with _ | l2
    · simp at h
    · simp only [Except.ok.injEq] at h
      subst h
      rcases List.mem_map.mp hg with ⟨mv2, hmem, hres2⟩
      have h1 : sizeOf g < sizeOf mv2 := sizeOf_maybeResolve_lt mv2 r g hres2
      have h2 : sizeOf mv2 < sizeOf l2 := List.sizeOf_lt_of_mem hmem
      have h3 : sizeOf l2 < sizeOf flds := by
        have := sizeOf_maybeResolve_lt flds role l2
          (maybeResolve_of_resolve2 _ _ _ _ hres)
        exact this
      simp only [Field.ofKind.sizeOf_spec]
      omega
  | array c items minI maxI uniq addI =>
    simp only [iterFields] at h
    simp only [Except.ok.injEq] at h
    subst h
    rcases List.mem_append.mp hg with hg1 | hg2
    · rcases hres : maybeResolve2 items role with ⟨o, r⟩
      rw [hres] at hg1
      rcases o with _ | its
      · simp at hg1
      · rcases its with g2 | l2
        · simp at hg1
          subst hg1
          have h1 : sizeOf (Items.single g) < sizeOf items := by
            have := sizeOf_maybeResolve_lt items role (.single g)
              (maybeResolve_of_resolve2 _ _ _ _ hres)
            exact this
          simp only [Items.single.sizeOf_spec] at h1
          simp only [Field.array.sizeOf_spec]
          omega
        · rcases List.mem_map.mp hg1 with ⟨mv2, hmem, hres2⟩
          have h1 : sizeOf g < sizeOf mv2 := sizeOf_maybeResolve_lt mv2 r g hres2
          have h2 : sizeOf mv2 < sizeOf l2 := List.sizeOf_lt_of_mem hmem
          have h3 : sizeOf (Items.list l2) < sizeOf items := by
            have := sizeOf_maybeResolve_lt items role (.list l2)
              (maybeResolve_of_resolve2 _ _ _ _ hres)
            exact this
          simp only [Items.list.sizeOf_spec] at h3
          simp only [Field.array.sizeOf_spec]
          omega
    · rcases hres : maybeResolve addI role with _ | ai
      · rw [hres] at hg2
        simp at hg2
      · rw [hres] at hg2
        rcases ai with b | g2
        · simp at hg2
        · simp at hg2
          subst hg2
          have h1 : sizeOf (AddItems.field g) < sizeOf addI :=
            sizeOf_maybeResolve_lt addI role (.field g) hres
          simp only [AddItems.field.sizeOf_spec] at h1
          simp only [Field.array.sizeOf_spec]
          omega
  | dict c props patProps addProps minP maxP =>
    simp only [iterFields] at h
    simp only [Except.ok.injEq] at h
    subst h
    have hstep : ∀ (pp : MaybeVar (List (String × MaybeVar Field)))
        (ps : List (String × MaybeVar Field)) (r : String),
        maybeResolve2 pp role = (some ps, r) →
        some g ∈ (ps.filterMap (fun nv => maybeResolve nv.2 r)).map some →
        sizeOf g < sizeOf pp := by
      intro pp ps r hres hgmem
      rcases List.mem_map.mp hgmem with ⟨g2, hmem2, hg2⟩
      have hg2b : g2 = g := by injection hg2
      rw [hg2b] at hmem2
      rcases List.mem_filterMap.mp hmem2 with ⟨nv, hnv, hres2⟩
      have h1 : sizeOf g < sizeOf nv.2 := sizeOf_maybeResolve_lt nv.2 r g hres2
      have h2 : sizeOf nv.2 ≤ sizeOf nv := by
        rcases nv with ⟨a, b⟩
        simp only [Prod.mk.sizeOf_spec]
        omega
      have h3 : sizeOf nv < sizeOf ps := List.sizeOf_lt_of_mem hnv
      have h4 : sizeOf ps < sizeOf pp := sizeOf_maybeResolve_lt pp role ps
        (maybeResolve_of_resolve2 _ _ _ _ hres)
      omega
    rcases List.mem_append.mp hg with hg1 | hg23
    · rcases List.mem_append.mp hg1 with hga | hgb
      · rcases hres : maybeResolve2 props role with ⟨o, r⟩
        rw [hres] at hga
        rcases o with _ | ps
        · simp at hga
        · have := hstep props ps r hres hga
          simp only [Field.dict.sizeOf_spec]
          omega
      · rcases hres : maybeResolve2 patProps role with ⟨o, r⟩
        rw [hres] at hgb
        rcases o with _ | ps
        · simp at hgb
        · have := hstep patProps ps r hres hgb
          simp only [Field.dict.sizeOf_spec]
          omega
    · rcases hres : maybeResolve addProps role with _ | ap
      · rw [hres] at hg23
        simp at hg23
      · rw [hres] at hg23
        rcases ap with b | g2
        · simp at hg23
        · simp at hg23
          subst hg23
          have h1 : sizeOf (AddProps.field g) < sizeOf addProps :=
            sizeOf_maybeResolve_lt addProps role (.field g) hres
          simp only [AddProps.field.sizeOf_spec] at h1
          simp only [Field.dict.sizeOf_spec]
          omega

theorem walkList_ne_fuel (go : Field → Except CErr (List Field)) :
    ∀ (l : List (Option Field)),
    (∀ g, some g ∈ l → go g ≠ .error .fuel) →
    walkList go l ≠ .error .fuel := by
  intro l
  induction l with
  | nil => intro _; simp [walkList]
  | cons hd t ih =>
    intro hall
    rcases hd with _ | g
    · simp only [walkList]
      exact ih (fun g hg => hall g (by simp [hg]))
    · simp only [walkList]
      cases hgo : go g with
      | error e =>
        simp [Except.bind, bind]
        intro h
        rw [h] at hgo
        exact hall g (by simp) hgo
      | ok xs =>
        simp only [hgo, bind, Except.bind]
        cases hrest : walkList go t with
        | error e =>
          simp
          intro h
          rw [h] at hrest
          exact ih (fun g2 hg2 => hall g2 (by simp [hg2])) hrest
        | ok ys => simp

theorem walkF_succ (env : Env) (fuel : Nat) (f : Field) (role : String)
    (tdf : Bool) (visited : List String) :
    walkF env (fuel + 1) f role tdf visited
    = walkStep env (fun g r t vis => walkF env fuel g r t vis)
        f role tdf visited := rfl

theorem sizeOf_propChild_lt (ps : List (String × MaybeVar Field)) (r : String)
    (g : Field) (hg : some g ∈ (ps.filterMap
      (fun nv => maybeResolve nv.2 r)).map some) :
    sizeOf g < sizeOf ps := by
  rcases List.mem_map.mp hg with ⟨g2, hmem2, hg2⟩
  have hg2b : g2 = g := by injection hg2
  rw [hg2b] at hmem2
  rcases List.mem_filterMap.mp hmem2 with ⟨nv, hnv, hres2⟩
  have h1 : sizeOf g < sizeOf nv.2 := sizeOf_maybeResolve_lt nv.2 r g hres2
  have h2 : sizeOf nv.2 ≤ sizeOf nv := by
    rcases nv with ⟨a, b⟩
    simp only [Prod.mk.sizeOf_spec]
    omega
  have h3 : sizeOf nv < sizeOf ps := List.sizeOf_lt_of_mem hnv
  omega

theorem walkBaseStep_ne_fuel (env : Env) (go : Field → Except CErr (List Field))
    (f : Field) (role : String)
    (hch : ∀ (l : List (Option Field)), iterFields env f role = .ok l →
      ∀ g, some g ∈ l → go g ≠ .error .fuel) :
    walkBaseStep env go f role ≠ .error .fuel := by
  unfold walkBaseStep
  cases hi : iterFields env f role with
  | error e =>
    intro h
    injection h with h
    rw [h] at hi
    exact iterFields_ne_fuel env f role hi
  | ok children =>
    cases hwl : walkList go children with
    | error e =>
      simp only [hwl]
      intro h
      injection h with h
      rw [h] at hwl
      exact walkList_ne_fuel go children (hch children hi) hwl
    | ok rest => simp [hwl]

theorem walkF_bound (env : Env) :
    ∀ (fuel : Nat) (f : Field) (role : String) (tdf : Bool)
      (visited : List String),
    sizeOf f + ((env.filter (fun nd => !visited.contains nd.1)).map
      (fun nd => 1 + sizeOf nd.2.properties)).sum < fuel →
    walkF env fuel f role tdf visited ≠ .error .fuel := by
  intro fuel
  induction fuel with
  | zero =>
    intro f role tdf visited h
    exact absurd h (Nat.not_lt_zero _)
  | succ fuel ih =>
    intro f role tdf visited hlt
    rw [walkF_succ]
    have hnondoc : ∀ (f2 : Field), f2.isDocF = false → sizeOf f2 ≤ sizeOf f →
        walkBaseStep env (fun g => walkF env fuel g role tdf visited)
          f2 role ≠ .error .fuel := by
      intro f2 hnd hsz
      apply walkBaseStep_ne_fuel
      intro l hl g hgmem
      have hglt := iterFields_size env f2 role l hnd hl g hgmem
      apply ih
      omega
    cases f with
    | boolean c =>
      exact hnondoc (.boolean c) rfl (le_refl _)
    | string c pat fmt minL maxL =>
      exact hnondoc (.string c pat fmt minL maxL) rfl (le_refl _)
    | number numType c mo mi ma emin emax =>
      exact hnondoc (.number numType c mo mi ma emin emax) rfl (le_refl _)
    | array c items minI maxI uniq addI =>
      exact hnondoc (.array c items minI maxI uniq addI) rfl (le_refl _)
    | dict c props patProps addProps minP maxP =>
      exact hnondoc (.dict c props patProps addProps minP maxP) rfl (le_refl _)
    | ofKind keyword c flds =>
      exact hnondoc (.ofKind keyword c flds) rfl (le_refl _)
    | notF c mvf =>
      exact hnondoc (.notF c mvf) rfl (le_refl _)
    | docF req mv asRef owner =>
      simp only [walkStep]
      cases tdf with
      | false => simp
      | true =>
        simp only [if_true]
        cases hdc : getDocumentCls env owner mv role with
        | error e =>
          intro h
          injection h with h
          rw [h] at hdc
          exact getDocumentCls_not_fuel env owner mv role hdc
        | ok o =>
          rcases o with _ | dname
          · simp
          · by_cases hv : dname ∈ visited
            · simp [hv]
            · have hv2 : visited.contains dname = false := by simpa using hv
              simp only [hv2, Bool.false_eq_true, if_false]
              cases hl : lookupA env dname with
              | none => simp
              | some doc =>
                have hw := envWeight_lookup env dname doc visited hl hv2
                cases hwl : walkList
                    (fun g => walkF env fuel g role true (dname :: visited))
                    ((doc.properties.filterMap
                      (fun nv => maybeResolve nv.2 role)).map some) with
                | error e =>
                  simp only [hwl]
                  intro h
                  injection h with h
                  rw [h] at hwl
                  refine walkList_ne_fuel _ _ ?_ hwl
                  intro g hgmem
                  have hglt := sizeOf_propChild_lt doc.properties role g hgmem
                  apply ih
                  have hf1 : (1 : Nat) ≤ sizeOf (Field.docF req mv asRef owner) := by
                    simp only [Field.docF.sizeOf_spec]
                    omega
                  omega
                | ok rest => simp [hwl]

/-- A self-referential document: its single property is a DocumentField that
points back to `"A"`, the very name under which the document is registered. -/
def docA : Document :=
  { properties := [("b", .plain (some
      (.docF (.plain (some false)) (.plain (some "A")) false (some "A"))))],
    definitionId := "a" }

def envA : Env := [("A", docA)]

/-- C6: `walk` with `through_document_fields=True` terminates on every field
tree, including trees whose DocumentFields form self-referential or
mutually-referential Document cycles: for every environment, field, role and
visited set there is a fuel bound past which the fuel-indexed walk never
reports fuel exhaustion, so expansion is finite; and a DocumentField whose
resolved document class is already in the `visited_documents` set it was given
is never re-entered -- it yields only itself. -/
theorem claim_C6 :
    (∀ (env : Env) (f : Field) (role : String) (tdf : Bool)
        (visited : List String),
      ∃ fuel0 : Nat, ∀ fuel, fuel0 ≤ fuel →
        walkF env fuel f role tdf visited ≠ .error .fuel) ∧
    (∀ (env : Env) (fuel : Nat) (req : MaybeVar Bool) (mv : MaybeVar String)
        (asRef : Bool) (owner : Option String) (role : String)
        (visited : List String) (dname : String),
      getDocumentCls env owner mv role = .ok (some dname) →
      visited.contains dname = true →
      walkF env (fuel + 1) (.docF req mv asRef owner) role true visited
        = .ok [.docF req mv asRef owner]) := by
  constructor
  · intro env f role tdf visited
    refine ⟨sizeOf f + ((env.filter (fun nd => !visited.contains nd.1)).map
      (fun nd => 1 + sizeOf nd.2.properties)).sum + 1, ?_⟩
    intro fuel hf
    apply walkF_bound
    omega
  · intro env fuel req mv asRef owner role visited dname hdc hv
    have hm : dname ∈ visited := by simpa using hv
    rw [walkF_succ]
    simp [walkStep, hdc, hm]

/-- Witness for C6 on the self-referential registry `envA`: with `"A"` already
visited the DocumentField pointing at `"A"` expands to just itself, and on an
empty visited set the walk of that field has a fuel bound past which fuel never
runs out. -/
theorem claim_C6_witness :
    (walkF envA 2
        (.docF (.plain (some false)) (.plain (some "A")) false (some "A"))
        "default" true ["A"]
      = .ok [.docF (.plain (some false)) (.plain (some "A")) false (some "A")])
    ∧ (∃ fuel0 : Nat, ∀ fuel, fuel0 ≤ fuel →
      walkF envA fuel
        (.docF (.plain (some false)) (.plain (some "A")) false (some "A"))
        "default" true [] ≠ .error .fuel) :=
  ⟨claim_C6.2 envA 1 (.plain (some false)) (.plain (some "A")) false
      (some "A") "default" ["A"] "A" (by simp [getDocumentCls, maybeResolve,
        RECURSIVE_REFERENCE_CONSTANT, lookupA, envA]) rfl,
   claim_C6.1 envA
     (.docF (.plain (some false)) (.plain (some "A")) false (some "A"))
     "default" true []⟩

end Jsl
